import Mathlib

/-!
Verification of the natural-language specification of the RAG backend
against a shallow embedding of its Python source
(`backend/core/...`).  Strings are modelled as `List Char`, Python
`int` as `ℤ`/`ℕ`, Python `float` arithmetic idealised as exact
rationals / reals, dictionaries as association lists in insertion
order.
-/

namespace RAG

/-! ## Python string primitives

Shared helpers modelling CPython string behaviour used throughout the
code base: the Unicode whitespace class used by `str.split()` /
`str.strip()`, word splitting, and stripping.
-/

/-- Characters treated as whitespace by CPython's `str.split()` and
`str.strip()` (`Py_UNICODE_ISSPACE`). -/
def pyIsSpace (c : Char) : Bool :=
  (c == ' ') || (c == '\t') || (c == '\n') || (c == '\x0b') || (c == '\x0c') ||
  (c == '\r') ||
  (decide (0x1c ≤ c.toNat) && decide (c.toNat ≤ 0x1f)) ||
  (c.toNat == 0x85) || (c.toNat == 0xa0) || (c.toNat == 0x1680) ||
  (decide (0x2000 ≤ c.toNat) && decide (c.toNat ≤ 0x200a)) ||
  (c.toNat == 0x2028) || (c.toNat == 0x2029) || (c.toNat == 0x202f) ||
  (c.toNat == 0x205f) || (c.toNat == 0x3000)

/-- Accumulator-based splitting of a character list into maximal runs of
non-whitespace characters (the behaviour of Python `str.split()` with no
argument).  `cur` holds the current word reversed. -/
def pyWordsAux : List Char → List Char → List (List Char)
  | [], cur => if cur.isEmpty then [] else [cur.reverse]
  | c :: cs, cur =>
    if pyIsSpace c then
      if cur.isEmpty then pyWordsAux cs [] else cur.reverse :: pyWordsAux cs []
    else
      pyWordsAux cs (c :: cur)

/-- Python `s.split()`: maximal whitespace-separated words. -/
def pyWords (s : List Char) : List (List Char) :=
  pyWordsAux s []

/-- Python `s.strip()`: remove leading and trailing whitespace. -/
def pyStrip (s : List Char) : List Char :=
  ((s.dropWhile pyIsSpace).reverse.dropWhile pyIsSpace).reverse

/-- Python `round()` on an exact rational: round half to even
(banker's rounding), as used by CPython's `round`. -/
def roundHalfEven (q : ℚ) : ℤ :=
  let f : ℤ := ⌊q⌋
  let r : ℚ := q - f
  if r < 1/2 then f
  else if 1/2 < r then f + 1
  else if Even f then f else f + 1

/-! ## C3 — `backend/core/chunking_metadata.py`

`ChunkMetadataTracker.create_chunk` and the private
`_compute_quality_score`.  `uuid4()` is modelled by a caller-supplied
numeric identifier; the float product `word_count * 1.3` is idealised
as the exact rational `word_count * 13/10` before Python's
round-half-to-even.
-/

/-- Shallow embedding of `backend.core.chunking_models.Chunk` restricted
to the fields `create_chunk` populates; the metadata dictionary is
flattened into the optional provenance fields it is built from. -/
structure Chunk where
  chunk_id : ℕ
  document_id : ℕ
  content : List Char
  original_content : List Char
  page_number : ℤ
  section_title : Option (List Char)
  token_count : ℤ
  word_count : ℕ
  char_count : ℕ
  quality_score : ℚ
  deriving Repr, DecidableEq

/-- `ChunkMetadataTracker._compute_quality_score` translated clause by
clause from the source. -/
def computeQualityScore (token_count : ℤ) : ℚ :=
  if token_count ≤ 0 then 0
  else if token_count ≤ 300 then max (1/10) ((token_count : ℚ) / 300)
  else if token_count ≤ 800 then 1
  else max 0 (1 - ((token_count : ℚ) - 800) / 800)

/-- `ChunkMetadataTracker.create_chunk`.  The fresh `uuid4()` chunk id is
passed in as `chunk_id`. -/
def createChunk (chunk_id : ℕ) (content : List Char) (document_id : ℕ)
    (page_number : ℤ) (section_title : Option (List Char))
    (original_content : Option (List Char)) : Chunk :=
  let text := content
  let original := original_content.getD text
  let words := pyWords text
  let word_count := words.length
  let char_count := text.length
  let token_count := roundHalfEven ((word_count : ℚ) * (13/10))
  let quality_score := computeQualityScore token_count
  { chunk_id := chunk_id
    document_id := document_id
    content := text
    original_content := original
    page_number := page_number
    section_title := section_title
    token_count := token_count
    word_count := word_count
    char_count := char_count
    quality_score := quality_score }

/-- Claim C3: for every chunk created by `ChunkMetadataTracker.create_chunk`,
`quality_score` is the deterministic function of `token_count` `t`:
`0` when `t = 0`; `max(0.1, t/300)` when `0 < t ≤ 300`; exactly `1.0`
when `300 ≤ t ≤ 800`; and `max(0, 1 − (t−800)/800)` when `t > 800`. -/
theorem claim_C3_quality_score (chunk_id : ℕ) (content : List Char)
    (document_id : ℕ) (page_number : ℤ) (section_title : Option (List Char))
    (original_content : Option (List Char)) (c : Chunk)
    (hc : c = createChunk chunk_id content document_id page_number
      section_title original_content) :
    (c.token_count = 0 → c.quality_score = 0) ∧
    (0 < c.token_count → c.token_count ≤ 300 →
      c.quality_score = max (1/10) ((c.token_count : ℚ) / 300)) ∧
    (300 ≤ c.token_count → c.token_count ≤ 800 → c.quality_score = 1) ∧
    (800 < c.token_count →
      c.quality_score = max 0 (1 - ((c.token_count : ℚ) - 800) / 800)) := by
  subst hc
  have hq : (createChunk chunk_id content document_id page_number
      section_title original_content).quality_score =
    computeQualityScore (createChunk chunk_id content document_id
      page_number section_title original_content).token_count := rfl
  rw [hq]
  generalize (createChunk chunk_id content document_id page_number
    section_title original_content).token_count = t
  unfold computeQualityScore
  refine ⟨?_, ?_, ?_, ?_⟩
  · intro h; simp [h]
  · intro h1 h2
    rw [if_neg (by omega), if_pos h2]
  · intro h1 h2
    rcases lt_or_eq_of_le h1 with h | h
    · rw [if_neg (by omega), if_neg (by omega), if_pos h2]
    · subst h
      rw [if_neg (by omega), if_pos le_rfl]
      norm_num
  · intro h
    rw [if_neg (by omega), if_neg (by omega), if_neg (by omega)]

/-- Token count of the concrete chunk used in the C3 witness:
`"hello world"` has two words, and `round(2 · 1.3) = 3`. -/
lemma tokenCount_helloWorld :
    (createChunk 0 "hello world".data 0 0 none none).token_count = 3 := by
  show roundHalfEven (((pyWords "hello world".data).length : ℚ) * (13/10)) = 3
  have h : (pyWords "hello world".data).length = 2 := by decide
  rw [h]
  unfold roundHalfEven
  norm_num

/-- Witness for C3 at a concrete chunk: `"hello world"` has two words,
hence `token_count = round(2·1.3) = 3` and quality `max(0.1, 3/300) = 0.1`. -/
theorem claim_C3_quality_score_witness :
    let c := createChunk 0 "hello world".data 0 0 none none
    c.quality_score = max (1/10) ((c.token_count : ℚ) / 300) :=
  (claim_C3_quality_score 0 "hello world".data 0 0 none none
      (createChunk 0 "hello world".data 0 0 none none) rfl).2.1
    (by rw [tokenCount_helloWorld]; norm_num)
    (by rw [tokenCount_helloWorld]; norm_num)

/-! ## C4 — `backend/core/ingestion_models.py`

`IngestionJob.progress_percent` and `_compute_processing_progress`.
Only the `status` and `metrics` fields participate; metric values are
irrelevant (only key presence is tested), so metrics are modelled as an
association list with values in an arbitrary type. -/

/-- `IngestionStatus` enum. -/
inductive IngestionStatus where
  | pending
  | processing
  | completed
  | failed
  deriving Repr, DecidableEq

/-- Shallow embedding of `IngestionJob` restricted to the fields read by
`progress_percent`. -/
structure IngestionJob (α : Type) where
  ingestion_id : ℕ
  document_id : ℕ
  status : IngestionStatus
  metrics : List (String × α)

/-- Stage keys inspected by `_compute_processing_progress`. -/
def completedStageKeys : List String :=
  ["extraction_duration_ms", "chunking_duration_ms",
   "embedding_duration_ms", "storage_duration_ms"]

/-- Number of stage keys present in the job's metrics dictionary
(`sum(1 for key in completed_keys if key in self.metrics)`). -/
def IngestionJob.stagesCompleted {α : Type} (job : IngestionJob α) : ℕ :=
  completedStageKeys.countP (fun k => (job.metrics.map Prod.fst).contains k)

/-- `IngestionJob._compute_processing_progress`. -/
def IngestionJob.computeProcessingProgress {α : Type}
    (job : IngestionJob α) : ℕ :=
  min 99 (25 + job.stagesCompleted * 20)

/-- `IngestionJob.progress_percent`. -/
def IngestionJob.progressPercent {α : Type} (job : IngestionJob α) : ℕ :=
  match job.status with
  | .pending => 0
  | .processing => job.computeProcessingProgress
  | .completed => 100
  | .failed => max 50 job.computeProcessingProgress

/-- Claim C4: `progress_percent` is 0 when pending, `min(99, 25+20·s)`
when processing (where `s` counts the stages whose duration key is in
`metrics`), 100 when completed, and `max(50, estimate)` when failed;
consequently it lies in `{0} ∪ [25,99] ∪ {100}` and equals 100 exactly
when the status is completed. -/
theorem claim_C4_progress_percent {α : Type} (job : IngestionJob α) :
    (job.status = .pending → job.progressPercent = 0) ∧
    (job.status = .processing →
      job.progressPercent = min 99 (25 + job.stagesCompleted * 20)) ∧
    (job.status = .completed → job.progressPercent = 100) ∧
    (job.status = .failed →
      job.progressPercent = max 50 (min 99 (25 + job.stagesCompleted * 20))) ∧
    (job.progressPercent = 0 ∨
      (25 ≤ job.progressPercent ∧ job.progressPercent ≤ 99) ∨
      job.progressPercent = 100) ∧
    (job.progressPercent = 100 ↔ job.status = .completed) := by
  have hproc : 25 ≤ job.computeProcessingProgress ∧
      job.computeProcessingProgress ≤ 99 := by
    unfold IngestionJob.computeProcessingProgress
    exact ⟨le_min (by norm_num) (by omega), min_le_left _ _⟩
  obtain ⟨h1, h2⟩ := hproc
  cases hst : job.status <;>
    simp [IngestionJob.progressPercent, hst,
      IngestionJob.computeProcessingProgress] <;>
    omega

/-- Witness for C4 at a concrete processing job with one completed
stage: progress is `min 99 (25 + 20) = 45`. -/
theorem claim_C4_progress_percent_witness :
    (IngestionJob.mk 0 0 .processing
      [("extraction_duration_ms", (12 : ℤ))]).progressPercent =
      min 99 (25 + (IngestionJob.mk 0 0 .processing
        [("extraction_duration_ms", (12 : ℤ))]).stagesCompleted * 20) :=
  (claim_C4_progress_percent _).2.1 rfl

/-! ## C9 — `backend/core/guardrails.py`

`InputValidator.validate_query_text`, `validate_top_k`,
`validate_request`.  The single configured forbidden pattern is the
case-insensitive literal regex `__FORBIDDEN__`; `re.IGNORECASE` search
of a literal is modelled by lower-casing both sides and testing for a
substring occurrence. -/

/-- Does `p` occur as an initial segment of `s`? -/
def leadsWith : List Char → List Char → Bool
  | [], _ => true
  | _ :: _, [] => false
  | p :: ps, c :: cs => p == c && leadsWith ps cs

/-- Does `p` occur as a contiguous substring of `s`? -/
def hasSub (p : List Char) : List Char → Bool
  | [] => leadsWith p []
  | c :: cs => leadsWith p (c :: cs) || hasSub p cs

/-- Maximum query length accepted by the validator. -/
def MAX_QUERY_LENGTH : ℕ := 5000

/-- Bounds on the `top_k` parameter. -/
def TOP_K_MIN : ℤ := 1

/-- Upper bound on the `top_k` parameter. -/
def TOP_K_MAX : ℤ := 100

/-- Case-insensitive search for the single entry of
`InputValidator.FORBIDDEN_PATTERNS` (the literal `__FORBIDDEN__`). -/
def containsForbidden (q : List Char) : Bool :=
  hasSub ("__forbidden__".data) (q.map Char.toLower)

/-- Embedding of `backend.core.exceptions.ValidationError` restricted to
the message and offending-field payload. -/
structure ValidationErr where
  message : String
  validation_field : String
  deriving Repr, DecidableEq

/-- `InputValidator.validate_query_text`. -/
def validateQueryText (query : List Char) : Except ValidationErr Unit :=
  if query = [] ∨ pyStrip query = [] then
    .error ⟨"Query cannot be empty", "query"⟩
  else if MAX_QUERY_LENGTH < query.length then
    .error ⟨"Query exceeds maximum length of 5000 characters", "query"⟩
  else if containsForbidden query then
    .error ⟨"Query contains forbidden content", "query"⟩
  else .ok ()

/-- `InputValidator.validate_top_k` (the `details` dictionary of the
raised error is omitted). -/
def validateTopK (top_k : ℤ) : Except ValidationErr Unit :=
  if top_k < TOP_K_MIN ∨ TOP_K_MAX < top_k then
    .error ⟨"top_k must be between 1 and 100", "top_k"⟩
  else .ok ()

/-- `InputValidator.validate_request`: query text first, then `top_k`. -/
def validateRequest (query : List Char) (top_k : ℤ) :
    Except ValidationErr Unit :=
  match validateQueryText query with
  | .error e => .error e
  | .ok () => validateTopK top_k

/-- Claim C9: `validate_request` raises `ValidationError` carrying the
offending field name exactly when the query is empty or
whitespace-only, longer than 5000 characters, or matches a forbidden
pattern (field `"query"`), or `top_k` lies outside `[1, 100]`
(field `"top_k"`); otherwise it returns without error. -/
theorem claim_C9_validate_request (query : List Char) (top_k : ℤ) :
    (validateRequest query top_k = .ok () ↔
      ¬(pyStrip query = [] ∨ MAX_QUERY_LENGTH < query.length ∨
        containsForbidden query = true ∨ top_k < TOP_K_MIN ∨
        TOP_K_MAX < top_k)) ∧
    ((pyStrip query = [] ∨ MAX_QUERY_LENGTH < query.length ∨
        containsForbidden query = true) →
      ∃ m, validateRequest query top_k = .error ⟨m, "query"⟩) ∧
    (¬(pyStrip query = [] ∨ MAX_QUERY_LENGTH < query.length ∨
        containsForbidden query = true) →
      (top_k < TOP_K_MIN ∨ TOP_K_MAX < top_k) →
      ∃ m, validateRequest query top_k = .error ⟨m, "top_k"⟩) := by
  have hempty : (query = [] ∨ pyStrip query = []) ↔ pyStrip query = [] := by
    constructor
    · rintro (rfl | h) <;> simp_all [pyStrip]
    · exact Or.inr
  unfold validateRequest validateQueryText validateTopK
  refine ⟨?_, ?_, ?_⟩
  · by_cases h1 : query = [] ∨ pyStrip query = []
    · rw [if_pos h1]
      simp [hempty.mp h1]
    · rw [if_neg h1]
      rw [hempty] at h1
      by_cases h2 : MAX_QUERY_LENGTH < query.length
      · rw [if_pos h2]; simp [h1, h2]
      · rw [if_neg h2]
        by_cases h3 : containsForbidden query
        · rw [if_pos h3]; simp [h1, h2, h3]
        · rw [if_neg h3]
          by_cases h4 : top_k < TOP_K_MIN ∨ TOP_K_MAX < top_k
          · rw [if_pos h4]; simp [h1, h2, h3, h4]
          · rw [if_neg h4]; simp [h1, h2, h3, h4]
  · intro h
    by_cases h1 : query = [] ∨ pyStrip query = []
    · rw [if_pos h1]; exact ⟨_, rfl⟩
    · rw [if_neg h1]
      rw [hempty] at h1
      by_cases h2 : MAX_QUERY_LENGTH < query.length
      · rw [if_pos h2]; exact ⟨_, rfl⟩
      · rw [if_neg h2]
        have h3 : containsForbidden query = true := by tauto
        rw [if_pos h3]; exact ⟨_, rfl⟩
  · intro h htop
    push_neg at h
    obtain ⟨h1, h2, h3⟩ := h
    rw [if_neg (by rw [hempty]; exact h1), if_neg (by omega),
      if_neg (by simp [h3]), if_pos htop]
    exact ⟨_, rfl⟩

/-- Witness for C9 at the concrete request `("hi", top_k = 0)`: the
query text passes but `top_k = 0` is rejected with field `"top_k"`. -/
theorem claim_C9_validate_request_witness :
    ∃ m, validateRequest "hi".data 0 = .error ⟨m, "top_k"⟩ :=
  (claim_C9_validate_request "hi".data 0).2.2 (by decide) (by decide)

/-! ## C10 — `backend/core/extractors/text_extractor.py`

`TextExtractor._decode`: try UTF-8, then Latin-1, then UTF-8 with
errors ignored; raise `ExtractionError(error_type="decode_error")` if
everything fails.  Bytes are `Fin 256`; each codec is modelled from
first principles, with decode failure represented by `Option`. -/

/-- Construct a `Char` from a code point, failing on values that are
not Unicode scalar values (the only way any strict decoder can fail to
produce a character). -/
def mkChar (n : ℕ) : Option Char :=
  if h : n.isValidChar then some ⟨⟨n, by
    rcases h with h | ⟨h1, h2⟩
    · exact Nat.lt_trans h (by norm_num)
    · exact Nat.lt_trans h2 (by norm_num)⟩, by
    rcases h with h | ⟨h1, h2⟩
    · exact Or.inl h
    · exact Or.inr ⟨h1, h2⟩⟩
  else none

/-- Is `b` a UTF-8 continuation byte (`0x80 ≤ b < 0xc0`)? -/
def isCont (b : Fin 256) : Bool :=
  decide (0x80 ≤ b.val) && decide (b.val < 0xc0)

/-- Decode one scalar value from the head of a strict UTF-8 stream,
returning the character and the remaining bytes.  Overlong encodings,
surrogates and out-of-range sequences are rejected, as CPython's strict
`utf-8` codec does. -/
def utf8Step : List (Fin 256) → Option (Char × List (Fin 256))
  | [] => none
  | b1 :: rest =>
    if b1.val < 0x80 then (mkChar b1.val).map (·, rest)
    else if b1.val < 0xc2 then none
    else if b1.val < 0xe0 then
      match rest with
      | b2 :: rest2 =>
        if isCont b2 then
          (mkChar ((b1.val - 0xc0) * 64 + (b2.val - 0x80))).map (·, rest2)
        else none
      | [] => none
    else if b1.val < 0xf0 then
      match rest with
      | b2 :: b3 :: rest3 =>
        if isCont b2 && isCont b3 &&
            (b1.val != 0xe0 || decide (0xa0 ≤ b2.val)) &&
            (b1.val != 0xed || decide (b2.val ≤ 0x9f)) then
          (mkChar ((b1.val - 0xe0) * 4096 + (b2.val - 0x80) * 64 +
            (b3.val - 0x80))).map (·, rest3)
        else none
      | _ => none
    else if b1.val < 0xf5 then
      match rest with
      | b2 :: b3 :: b4 :: rest4 =>
        if isCont b2 && isCont b3 && isCont b4 &&
            (b1.val != 0xf0 || decide (0x90 ≤ b2.val)) &&
            (b1.val != 0xf4 || decide (b2.val ≤ 0x8f)) then
          (mkChar ((b1.val - 0xf0) * 262144 + (b2.val - 0x80) * 4096 +
            (b3.val - 0x80) * 64 + (b4.val - 0x80))).map (·, rest4)
        else none
      | _ => none
    else none

/-- A successful `utf8Step` consumes at least one byte. -/
lemma utf8Step_length_lt {l : List (Fin 256)} {c : Char}
    {rest : List (Fin 256)} (h : utf8Step l = some (c, rest)) :
    rest.length < l.length := by
  match l with
  | [] => simp [utf8Step] at h
  | b1 :: tl =>
    simp only [utf8Step] at h
    split_ifs at h with h1 h2 h3 h4 h5
    · rcases Option.map_eq_some'.mp h with ⟨c', _, h'⟩
      cases h'
      simp
    · match tl with
      | [] => simp at h
      | b2 :: rest2 =>
        simp only at h
        split_ifs at h
        rcases Option.map_eq_some'.mp h with ⟨c', _, h'⟩
        cases h'
        simp only [List.length_cons]
        omega
    · match tl with
      | [] => simp at h
      | [b2] => simp at h
      | b2 :: b3 :: rest3 =>
        simp only at h
        split_ifs at h
        rcases Option.map_eq_some'.mp h with ⟨c', _, h'⟩
        cases h'
        simp only [List.length_cons]
        omega
    · match tl with
      | [] => simp at h
      | [b2] => simp at h
      | [b2, b3] => simp at h
      | b2 :: b3 :: b4 :: rest4 =>
        simp only at h
        split_ifs at h
        rcases Option.map_eq_some'.mp h with ⟨c', _, h'⟩
        cases h'
        simp only [List.length_cons]
        omega

/-- Strict UTF-8 decoding of a whole byte string
(Python `content.decode("utf-8")`). -/
def utf8Decode (l : List (Fin 256)) : Option (List Char) :=
  match _hl : l with
  | [] => some []
  | _ :: _ =>
    match h : utf8Step l with
    | some (c, rest) =>
      have : rest.length < l.length := utf8Step_length_lt h
      (utf8Decode rest).map (c :: ·)
    | none => none
termination_by l.length

/-- UTF-8 decoding with invalid bytes skipped
(Python `content.decode("utf-8", errors="ignore")`). -/
def utf8DecodeIgnore (l : List (Fin 256)) : List Char :=
  match hl : l with
  | [] => []
  | _ :: tl =>
    match h : utf8Step l with
    | some (c, rest) =>
      have : rest.length < l.length := utf8Step_length_lt h
      c :: utf8DecodeIgnore rest
    | none =>
      have : tl.length < l.length := by rw [hl]; simp
      utf8DecodeIgnore tl
termination_by l.length

/-- Latin-1 decoding (Python `content.decode("latin-1")`): each byte
maps to the code point of the same value.  Failure would require a byte
that is not a Unicode scalar value. -/
def latin1Decode : List (Fin 256) → Option (List Char)
  | [] => some []
  | b :: tl =>
    match mkChar b.val, latin1Decode tl with
    | some c, some s => some (c :: s)
    | _, _ => none

/-- Embedding of `backend.core.exceptions.ExtractionError` restricted to
the fields `_decode` populates. -/
structure ExtractionErr where
  message : String
  error_type : String
  status_code : ℕ
  deriving Repr, DecidableEq

/-- Which branch of `TextExtractor._decode` produced the result. -/
inductive DecodeBranch where
  | utf8
  | latin1
  | utf8ignore
  deriving Repr, DecidableEq

/-- `TextExtractor._decode`, also reporting which branch produced the
result: the `for encoding in ("utf-8", "latin-1")` loop, then the
`errors="ignore"` fallback (which itself cannot fail, so the
`ExtractionError` raise is modelled as the value it would produce). -/
def textExtractorDecode (content : List (Fin 256)) :
    DecodeBranch × Except ExtractionErr (List Char) :=
  match utf8Decode content with
  | some s => (.utf8, .ok s)
  | none =>
    match latin1Decode content with
    | some s => (.latin1, .ok s)
    | none => (.utf8ignore, .ok (utf8DecodeIgnore content))

/-- Every byte is a Unicode scalar value, so Latin-1 decoding succeeds
on every byte string. -/
lemma latin1Decode_isSome (l : List (Fin 256)) :
    ∃ s, latin1Decode l = some s := by
  induction l with
  | nil => exact ⟨[], rfl⟩
  | cons b tl ih =>
    obtain ⟨s, hs⟩ := ih
    have hb : b.val.isValidChar := Or.inl (Nat.lt_trans b.isLt (by norm_num))
    simp only [latin1Decode, mkChar, dif_pos hb, hs]
    exact ⟨_, rfl⟩

/-- Claim C10: `TextExtractor._decode` returns a string and never
raises: the Latin-1 fallback succeeds on every byte sequence, so the
final UTF-8-ignore branch and the `decode_error` `ExtractionError`
branch are unreachable. -/
theorem claim_C10_decode_total (content : List (Fin 256)) :
    (∃ s, (textExtractorDecode content).2 = .ok s) ∧
    (textExtractorDecode content).1 ≠ .utf8ignore ∧
    (∃ s, latin1Decode content = some s) := by
  obtain ⟨s, hs⟩ := latin1Decode_isSome content
  unfold textExtractorDecode
  match h : utf8Decode content with
  | some u => exact ⟨⟨u, rfl⟩, by simp, s, hs⟩
  | none =>
    rw [hs]
    exact ⟨⟨s, rfl⟩, by simp, s, rfl⟩

/-! ## C8 — `backend/core/chunkers/sliding_window_chunker.py`

`SlidingWindowChunker.chunk`.  The returned dictionaries
`{"content", "start", "end"}` become the `RawChunk` record (`end` is a
Lean keyword, so the field is named `stop`).  The `while start <
text_len` loop is modelled with an explicit fuel parameter; the wrapper
passes `text.length + 1` fuel, which is enough for every iteration
since the step is positive. -/

/-- One raw window produced by the sliding-window chunker. -/
structure RawChunk where
  content : List Char
  start : ℕ
  stop : ℕ
  deriving Repr, DecidableEq

/-- The `while start < text_len` loop of `SlidingWindowChunker.chunk`:
window `[start, min(start+chunk_size, n))`, keep it when its content is
not whitespace-only, advance by `step = chunk_size - overlap`. -/
def swLoop (text : List Char) (n cs step : ℕ) : ℕ → ℕ → List RawChunk
  | _, 0 => []
  | start, fuel + 1 =>
    if start < n then
      let e := min (start + cs) n
      let content := (text.drop start).take (e - start)
      if pyStrip content ≠ [] then
        ⟨content, start, e⟩ :: swLoop text n cs step (start + step) fuel
      else
        swLoop text n cs step (start + step) fuel
    else []

/-- `SlidingWindowChunker.chunk`.  Parameter validation mirrors the
source: empty text or non-positive `chunk_size` return `[]` before the
`overlap` checks, which raise `ValueError` (modelled as `Except.error`). -/
def slidingWindowChunk (text : List Char) (chunk_size overlap : ℤ) :
    Except String (List RawChunk) :=
  if text = [] ∨ chunk_size ≤ 0 then .ok []
  else if overlap < 0 then .error "overlap must be >= 0"
  else if chunk_size ≤ overlap then .error "overlap must be < chunk_size"
  else .ok (swLoop text text.length chunk_size.toNat
    (chunk_size - overlap).toNat 0 (text.length + 1))

/-- Characterisation of every chunk produced by the loop: its window
starts at `start + j·step` for some `j`, its bounds and content are the
slice of the text, and it is not whitespace-only. -/
lemma swLoop_mem {text : List Char} {n cs step : ℕ} {start fuel : ℕ}
    {c : RawChunk} (h : c ∈ swLoop text n cs step start fuel) :
    (∃ j, c.start = start + j * step) ∧ c.start < n ∧
    c.stop = min (c.start + cs) n ∧
    c.content = (text.drop c.start).take (c.stop - c.start) ∧
    pyStrip c.content ≠ [] := by
  induction fuel generalizing start with
  | zero => simp [swLoop] at h
  | succ fuel ih =>
    simp only [swLoop] at h
    split_ifs at h with h1 h2
    · rcases List.mem_cons.mp h with rfl | h'
      · exact ⟨⟨0, by simp⟩, h1, rfl, rfl, h2⟩
      · obtain ⟨⟨j, hj⟩, rest⟩ := ih h'
        exact ⟨⟨j + 1, by rw [hj]; ring⟩, rest⟩
    · obtain ⟨⟨j, hj⟩, rest⟩ := ih h
      exact ⟨⟨j + 1, by rw [hj]; ring⟩, rest⟩
    · simp at h

/-- Chunks are produced with strictly increasing window starts
(when the step is positive). -/
lemma swLoop_starts_increasing {text : List Char} {n cs step : ℕ}
    (hstep : 0 < step) (start fuel : ℕ) :
    (swLoop text n cs step start fuel).Pairwise
      (fun a b => a.start < b.start) := by
  induction fuel generalizing start with
  | zero => simp [swLoop]
  | succ fuel ih =>
    simp only [swLoop]
    split_ifs with h1 h2
    · refine List.pairwise_cons.mpr ⟨?_, ih _⟩
      intro c hc
      obtain ⟨⟨j, hj⟩, _⟩ := swLoop_mem hc
      have hge : start + step ≤ c.start := by
        rw [hj]; exact Nat.le_add_right _ _
      simp only
      omega
    · exact ih _
    · simp

/-- Claim C8 as stated is false: with `text = "0123456789"`,
`chunk_size = 8`, `overlap = 4`, the adjacent produced chunks
`"456789"` (a truncated window) and `"89"` violate
`prefix(next, k) == suffix(current, k)`. -/
theorem claim_C8_counterexample :
    (slidingWindowChunk "0123456789".data 8 4).toOption = some
      [⟨"01234567".data, 0, 8⟩, ⟨"456789".data, 4, 10⟩,
       ⟨"89".data, 8, 10⟩] ∧
    ¬("89".data.take 4 =
      "456789".data.drop ("456789".data.length - 4)) := by
  constructor
  · decide
  · decide

/-- Claim C8 (amended): for non-empty text, `chunk_size > 0` and
`0 ≤ overlap < chunk_size`, every produced chunk is the window
`[start, min(start + chunk_size, n))` of the text with `start` a
multiple of `chunk_size − overlap`, whitespace-only windows are
dropped, no content exceeds `chunk_size` characters, window starts are
strictly increasing, and adjacent chunks `cur`, `next` satisfy
`prefix(next, k) == suffix(cur, k)` **provided** `next` starts exactly
one step after `cur` and `cur` is a full (untruncated) window — the
amendment forced by the counterexample, where the current window is
truncated by the end of the text. -/
theorem claim_C8_sliding_window_amended (text : List Char)
    (chunk_size overlap : ℤ) (htext : text ≠ []) (hcs : 0 < chunk_size)
    (hov : 0 ≤ overlap) (hlt : overlap < chunk_size) :
    ∃ out, slidingWindowChunk text chunk_size overlap = .ok out ∧
      (∀ c ∈ out,
        (∃ j, c.start = j * (chunk_size - overlap).toNat) ∧
        c.stop = min (c.start + chunk_size.toNat) text.length ∧
        c.content = (text.drop c.start).take (c.stop - c.start) ∧
        c.content.length ≤ chunk_size.toNat ∧
        pyStrip c.content ≠ []) ∧
      out.Pairwise (fun a b => a.start < b.start) ∧
      (∀ cur ∈ out, ∀ next ∈ out,
        next.start = cur.start + (chunk_size - overlap).toNat →
        cur.content.length = chunk_size.toNat →
        next.content.take overlap.toNat =
          cur.content.drop (chunk_size.toNat - overlap.toNat)) := by
  have hstep : (chunk_size - overlap).toNat = chunk_size.toNat - overlap.toNat := by
    omega
  have hstep_pos : 0 < (chunk_size - overlap).toNat := by omega
  refine ⟨swLoop text text.length chunk_size.toNat
    (chunk_size - overlap).toNat 0 (text.length + 1), ?_, ?_, ?_, ?_⟩
  · unfold slidingWindowChunk
    rw [if_neg (by push_neg; exact ⟨htext, by omega⟩), if_neg (by omega),
      if_neg (by omega)]
  · intro c hc
    obtain ⟨⟨j, hj⟩, hlt', hstop, hcontent, hws⟩ := swLoop_mem hc
    refine ⟨⟨j, by simpa using hj⟩, hstop, hcontent, ?_, hws⟩
    have hlen : c.content.length =
        min (c.stop - c.start) (text.length - c.start) := by
      rw [hcontent]; simp
    omega
  · exact swLoop_starts_increasing hstep_pos 0 _
  · intro cur hcur next hnext hstart hfull
    obtain ⟨_, hcur_lt, hcur_stop, hcur_content, _⟩ := swLoop_mem hcur
    obtain ⟨_, hnext_lt, hnext_stop, hnext_content, _⟩ := swLoop_mem hnext
    -- `cur` is a full window, so it fits inside the text.
    have hlen1 : cur.content.length =
        min (cur.stop - cur.start) (text.length - cur.start) := by
      rw [hcur_content]; simp
    have hfit : cur.start + chunk_size.toNat ≤ text.length := by omega
    -- both sides reduce to the slice `[next.start, next.start + overlap)`.
    rw [hnext_content, hcur_content, List.take_take, List.drop_take,
      List.drop_drop]
    have e1 : min overlap.toNat (next.stop - next.start) = overlap.toNat := by
      omega
    have e2 : cur.stop - cur.start -
        (chunk_size.toNat - overlap.toNat) = overlap.toNat := by omega
    have e3 : cur.start + (chunk_size.toNat - overlap.toNat) = next.start := by
      omega
    rw [e1, e2, e3]

/-- Witness for the amended C8 at `("0123456789", chunk_size 8, overlap 4)`. -/
theorem claim_C8_sliding_window_amended_witness :
    ∃ out, slidingWindowChunk "0123456789".data 8 4 = .ok out ∧
      (∀ c ∈ out,
        (∃ j, c.start = j * ((8 : ℤ) - 4).toNat) ∧
        c.stop = min (c.start + (8 : ℤ).toNat) "0123456789".data.length ∧
        c.content = ("0123456789".data.drop c.start).take (c.stop - c.start) ∧
        c.content.length ≤ (8 : ℤ).toNat ∧
        pyStrip c.content ≠ []) ∧
      out.Pairwise (fun a b => a.start < b.start) ∧
      (∀ cur ∈ out, ∀ next ∈ out,
        next.start = cur.start + ((8 : ℤ) - 4).toNat →
        cur.content.length = (8 : ℤ).toNat →
        next.content.take (4 : ℤ).toNat =
          cur.content.drop ((8 : ℤ).toNat - (4 : ℤ).toNat)) :=
  claim_C8_sliding_window_amended "0123456789".data 8 4
    (by decide) (by decide) (by decide) (by decide)

/-! ## C2 — `backend/core/vector_storage.py`

`InMemoryVectorDBStorageLayer.search_by_similarity`.  The store is the
dictionary's values in insertion order.  Python floats are idealised as
exact numbers: a cosine score `dot/(√norm_a·√norm_b)` is carried in the
exact representation `SimScore` (numerator and the product
`norm_a·norm_b`), whose comparison `SimScore.ltB` is proved to agree
with the real-valued score `SimScore.toReal`; `list.sort(key=…,
reverse=True)` is the stable descending insertion sort
`sortDescStable`; the slice `scored[:top_k]` keeps Python's semantics
for negative `top_k`. -/

/-- Embedding record restricted to the fields `search_by_similarity`
reads, with metadata an association list over an arbitrary value type. -/
structure Embedding (α : Type) where
  embedding_id : ℕ
  chunk_id : ℕ
  document_id : ℕ
  content : List Char
  embedding : List ℚ
  metadata : List (String × α)
  deriving DecidableEq

/-- Sum of squares accumulated exactly as the source loop does. -/
def sumSq (l : List ℚ) : ℚ :=
  l.foldl (fun acc x => acc + x * x) 0

/-- Dot product accumulated over `zip`, as the source loop does. -/
def dotProd (a b : List ℚ) : ℚ :=
  (a.zip b).foldl (fun acc p => acc + p.1 * p.2) 0

/-- Exact representation of a cosine-similarity float: the value is
`dot / √normProd`.  Every score built by `cosineSimilarity` has
`normProd > 0`. -/
structure SimScore where
  dot : ℚ
  normProd : ℚ
  deriving DecidableEq

/-- The real number a `SimScore` stands for. -/
noncomputable def SimScore.toReal (s : SimScore) : ℝ :=
  (s.dot : ℝ) / Real.sqrt (s.normProd : ℝ)

/-- The local `cosine_similarity` helper of `search_by_similarity`:
mismatched dimensions or an empty query score 0, zero norms score 0,
otherwise `dot/(√norm_a·√norm_b)` (carried exactly). -/
def cosineSimilarity (vec_a vec_b : List ℚ) : SimScore :=
  if vec_a.length ≠ vec_b.length ∨ vec_a = [] then ⟨0, 1⟩
  else if sumSq vec_a = 0 ∨ sumSq vec_b = 0 then ⟨0, 1⟩
  else ⟨dotProd vec_a vec_b, sumSq vec_a * sumSq vec_b⟩

/-- The real cosine similarity exactly as the source computes it
(including the 0 conventions for mismatch and zero norms). -/
noncomputable def realCosine (vec_a vec_b : List ℚ) : ℝ :=
  if vec_a.length ≠ vec_b.length ∨ vec_a = [] then 0
  else if sumSq vec_a = 0 ∨ sumSq vec_b = 0 then 0
  else (dotProd vec_a vec_b : ℝ) /
    (Real.sqrt (sumSq vec_a : ℝ) * Real.sqrt (sumSq vec_b : ℝ))

/-- Exact comparison of two scores `dot/√normProd`, valid whenever both
`normProd` are positive (`SimScore.ltB_iff`). -/
def SimScore.ltB (x y : SimScore) : Bool :=
  if x.dot < 0 then
    if 0 ≤ y.dot then true
    else decide (y.dot ^ 2 * x.normProd < x.dot ^ 2 * y.normProd)
  else
    if y.dot ≤ 0 then false
    else decide (x.dot ^ 2 * y.normProd < y.dot ^ 2 * x.normProd)

/-- Exact test for `score > 0.0`, valid whenever `normProd > 0`. -/
def SimScore.posB (s : SimScore) : Bool :=
  decide (0 < s.dot)

/-- Exact test for equality of two scores (a tie), valid whenever both
`normProd` are positive. -/
def SimScore.eqvB (x y : SimScore) : Bool :=
  !x.ltB y && !y.ltB x

/-- Stable insertion into a descending-sorted scored list: skip strictly
greater scores, then place the new element before the first score that
is not strictly greater — so among equal scores, earlier input elements
stay first, as Python's stable `list.sort(reverse=True)` does. -/
def insertScored {α : Type} (x : SimScore × α) :
    List (SimScore × α) → List (SimScore × α)
  | [] => [x]
  | h :: t => if SimScore.ltB x.1 h.1 then h :: insertScored x t else x :: h :: t

/-- Stable descending sort by score. -/
def sortDescStable {α : Type} : List (SimScore × α) → List (SimScore × α)
  | [] => []
  | x :: xs => insertScored x (sortDescStable xs)

/-- Python's `l[:k]` for an `int` bound: for negative `k` it keeps all
but the last `-k` elements. -/
def pySliceTo {β : Type} (l : List β) (k : ℤ) : List β :=
  if 0 ≤ k then l.take k.toNat else l.take (l.length - (-k).toNat)

/-- The `matches_filters` closure: every key/value pair of `filters`
must equal the candidate's metadata entry; an absent or empty `filters`
matches everything. -/
def matchesFilters {α : Type} [DecidableEq α]
    (filters : Option (List (String × α))) (e : Embedding α) : Bool :=
  match filters with
  | none => true
  | some fs => fs.all (fun kv => decide (e.metadata.lookup kv.1 = some kv.2))

/-- `InMemoryVectorDBStorageLayer.search_by_similarity`: score the
filtered store, sort stably by descending similarity, slice to `top_k`,
and keep the strictly positive scores. -/
def searchBySimilarity {α : Type} [DecidableEq α]
    (store : List (Embedding α)) (embedding : List ℚ) (top_k : ℤ)
    (filters : Option (List (String × α))) : List (Embedding α) :=
  if store = [] then []
  else
    ((pySliceTo
        (sortDescStable ((store.filter (fun e => matchesFilters filters e)).map
          (fun e => (cosineSimilarity embedding e.embedding, e))))
        top_k).filter
      (fun p => p.1.posB)).map Prod.snd

/-- The fold accumulating squares never decreases. -/
lemma foldl_add_sq_le (l : List ℚ) (acc : ℚ) :
    acc ≤ l.foldl (fun a x => a + x * x) acc := by
  induction l generalizing acc with
  | nil => exact le_rfl
  | cons x t ih =>
    exact le_trans (le_add_of_nonneg_right (mul_self_nonneg x)) (ih _)

/-- Sums of squares are non-negative. -/
lemma sumSq_nonneg (l : List ℚ) : 0 ≤ sumSq l :=
  foldl_add_sq_le l 0

/-- Every score built by `cosineSimilarity` has a positive `normProd`. -/
lemma cosineSimilarity_normProd_pos (a b : List ℚ) :
    0 < (cosineSimilarity a b).normProd := by
  unfold cosineSimilarity
  split_ifs with h1 h2
  · norm_num
  · norm_num
  · push_neg at h2
    exact mul_pos (lt_of_le_of_ne (sumSq_nonneg a) (Ne.symm h2.1))
      (lt_of_le_of_ne (sumSq_nonneg b) (Ne.symm h2.2))

/-- The exact score representation denotes the source's cosine value. -/
lemma cosineSimilarity_toReal (a b : List ℚ) :
    (cosineSimilarity a b).toReal = realCosine a b := by
  unfold cosineSimilarity realCosine SimScore.toReal
  split_ifs with h1 h2
  · simp
  · simp
  · push_neg at h2
    simp only
    rw [Rat.cast_mul, Real.sqrt_mul (by exact_mod_cast sumSq_nonneg a)]

/-- `SimScore.ltB` decides the strict order of the denoted reals,
for positive `normProd`s. -/
lemma SimScore.ltB_iff {x y : SimScore} (hx : 0 < x.normProd)
    (hy : 0 < y.normProd) : x.ltB y = true ↔ x.toReal < y.toReal := by
  have hxr : (0 : ℝ) < (x.normProd : ℝ) := by exact_mod_cast hx
  have hyr : (0 : ℝ) < (y.normProd : ℝ) := by exact_mod_cast hy
  have hsx : 0 < Real.sqrt (x.normProd : ℝ) := Real.sqrt_pos.mpr hxr
  have hsy : 0 < Real.sqrt (y.normProd : ℝ) := Real.sqrt_pos.mpr hyr
  have hsx2 : Real.sqrt (x.normProd : ℝ) ^ 2 = (x.normProd : ℝ) :=
    Real.sq_sqrt hxr.le
  have hsy2 : Real.sqrt (y.normProd : ℝ) ^ 2 = (y.normProd : ℝ) :=
    Real.sq_sqrt hyr.le
  have hdiv : x.toReal < y.toReal ↔
      (x.dot : ℝ) * Real.sqrt (y.normProd : ℝ) <
        (y.dot : ℝ) * Real.sqrt (x.normProd : ℝ) := by
    unfold SimScore.toReal
    exact div_lt_div_iff₀ hsx hsy
  unfold SimScore.ltB
  split_ifs with h1 h2 h3
  · -- x.dot < 0 ≤ y.dot
    have hxneg : (x.dot : ℝ) < 0 := by exact_mod_cast h1
    have hypos : (0 : ℝ) ≤ (y.dot : ℝ) := by exact_mod_cast h2
    simp only [true_iff]
    rw [hdiv]
    exact lt_of_lt_of_le (mul_neg_of_neg_of_pos hxneg hsy)
      (mul_nonneg hypos hsx.le)
  · -- x.dot < 0, y.dot < 0
    push_neg at h2
    have hA : (x.dot : ℝ) < 0 := by exact_mod_cast h1
    have hB : (y.dot : ℝ) < 0 := by exact_mod_cast h2
    rw [hdiv, decide_eq_true_eq]
    have hq : (y.dot ^ 2 * x.normProd < x.dot ^ 2 * y.normProd) ↔
        ((y.dot : ℝ) ^ 2 * (x.normProd : ℝ) <
         (x.dot : ℝ) ^ 2 * (y.normProd : ℝ)) := by
      constructor
      · intro h; exact_mod_cast h
      · intro h; exact_mod_cast h
    rw [hq]
    have hAsy : (x.dot : ℝ) * Real.sqrt (y.normProd : ℝ) < 0 :=
      mul_neg_of_neg_of_pos hA hsy
    have hBsx : (y.dot : ℝ) * Real.sqrt (x.normProd : ℝ) < 0 :=
      mul_neg_of_neg_of_pos hB hsx
    have hexp : ((x.dot : ℝ) * Real.sqrt (y.normProd : ℝ) -
          (y.dot : ℝ) * Real.sqrt (x.normProd : ℝ)) *
        ((x.dot : ℝ) * Real.sqrt (y.normProd : ℝ) +
          (y.dot : ℝ) * Real.sqrt (x.normProd : ℝ)) =
        (x.dot : ℝ) ^ 2 * Real.sqrt (y.normProd : ℝ) ^ 2 -
        (y.dot : ℝ) ^ 2 * Real.sqrt (x.normProd : ℝ) ^ 2 := by ring
    rw [hsx2, hsy2] at hexp
    constructor
    · intro h
      by_contra hc
      push_neg at hc
      have hdiff : 0 ≤ (x.dot : ℝ) * Real.sqrt (y.normProd : ℝ) -
          (y.dot : ℝ) * Real.sqrt (x.normProd : ℝ) := by linarith
      have hsum : (x.dot : ℝ) * Real.sqrt (y.normProd : ℝ) +
          (y.dot : ℝ) * Real.sqrt (x.normProd : ℝ) < 0 := by linarith
      have hprod := mul_nonpos_of_nonneg_of_nonpos hdiff hsum.le
      rw [hexp] at hprod
      linarith
    · intro h
      have hdiff : (x.dot : ℝ) * Real.sqrt (y.normProd : ℝ) -
          (y.dot : ℝ) * Real.sqrt (x.normProd : ℝ) < 0 := by linarith
      have hsum : (x.dot : ℝ) * Real.sqrt (y.normProd : ℝ) +
          (y.dot : ℝ) * Real.sqrt (x.normProd : ℝ) < 0 := by linarith
      have hprod := mul_pos_of_neg_of_neg hdiff hsum
      rw [hexp] at hprod
      linarith
  · -- 0 ≤ x.dot, y.dot ≤ 0
    push_neg at h1
    have hA : (0 : ℝ) ≤ (x.dot : ℝ) := by exact_mod_cast h1
    have hB : (y.dot : ℝ) ≤ 0 := by exact_mod_cast h3
    simp only [Bool.false_eq_true, false_iff, not_lt]
    have hy0 : y.toReal ≤ 0 :=
      div_nonpos_of_nonpos_of_nonneg hB hsy.le
    have hx0 : 0 ≤ x.toReal := div_nonneg hA hsx.le
    linarith
  · -- 0 ≤ x.dot, 0 < y.dot
    push_neg at h1 h3
    have hA : (0 : ℝ) ≤ (x.dot : ℝ) := by exact_mod_cast h1
    have hB : (0 : ℝ) < (y.dot : ℝ) := by exact_mod_cast h3
    rw [decide_eq_true_eq, hdiv]
    have hq : (x.dot ^ 2 * y.normProd < y.dot ^ 2 * x.normProd) ↔
        ((x.dot : ℝ) ^ 2 * (y.normProd : ℝ) <
         (y.dot : ℝ) ^ 2 * (x.normProd : ℝ)) := by
      constructor
      · intro h; exact_mod_cast h
      · intro h; exact_mod_cast h
    rw [hq]
    have hAsy : (0 : ℝ) ≤ (x.dot : ℝ) * Real.sqrt (y.normProd : ℝ) :=
      mul_nonneg hA hsy.le
    have hBsx : (0 : ℝ) < (y.dot : ℝ) * Real.sqrt (x.normProd : ℝ) :=
      mul_pos hB hsx
    have hexp2 : ((y.dot : ℝ) * Real.sqrt (x.normProd : ℝ) -
          (x.dot : ℝ) * Real.sqrt (y.normProd : ℝ)) *
        ((y.dot : ℝ) * Real.sqrt (x.normProd : ℝ) +
          (x.dot : ℝ) * Real.sqrt (y.normProd : ℝ)) =
        (y.dot : ℝ) ^ 2 * Real.sqrt (x.normProd : ℝ) ^ 2 -
        (x.dot : ℝ) ^ 2 * Real.sqrt (y.normProd : ℝ) ^ 2 := by ring
    rw [hsx2, hsy2] at hexp2
    constructor
    · intro h
      by_contra hc
      push_neg at hc
      have hdiff : (y.dot : ℝ) * Real.sqrt (x.normProd : ℝ) -
          (x.dot : ℝ) * Real.sqrt (y.normProd : ℝ) ≤ 0 := by linarith
      have hsum : 0 < (y.dot : ℝ) * Real.sqrt (x.normProd : ℝ) +
          (x.dot : ℝ) * Real.sqrt (y.normProd : ℝ) := by linarith
      have hprod := mul_nonpos_of_nonpos_of_nonneg hdiff hsum.le
      rw [hexp2] at hprod
      linarith
    · intro h
      have hdiff : 0 < (y.dot : ℝ) * Real.sqrt (x.normProd : ℝ) -
          (x.dot : ℝ) * Real.sqrt (y.normProd : ℝ) := by linarith
      have hsum : 0 < (y.dot : ℝ) * Real.sqrt (x.normProd : ℝ) +
          (x.dot : ℝ) * Real.sqrt (y.normProd : ℝ) := by linarith
      have hprod := mul_pos hdiff hsum
      rw [hexp2] at hprod
      linarith

/-- `SimScore.posB` decides `score > 0.0` for positive `normProd`. -/
lemma SimScore.posB_iff {s : SimScore} (hs : 0 < s.normProd) :
    s.posB = true ↔ 0 < s.toReal := by
  have hsr : (0 : ℝ) < (s.normProd : ℝ) := by exact_mod_cast hs
  have hsq : 0 < Real.sqrt (s.normProd : ℝ) := Real.sqrt_pos.mpr hsr
  unfold SimScore.posB SimScore.toReal
  rw [decide_eq_true_eq]
  constructor
  · intro h
    exact div_pos (by exact_mod_cast h) hsq
  · intro h
    rcases div_pos_iff.mp h with ⟨h1, _⟩ | ⟨_, h2⟩
    · exact_mod_cast h1
    · exact absurd hsq (not_lt.mpr h2.le)

/-- `SimScore.eqvB` decides equality (a tie) of the denoted scores for
positive `normProd`s. -/
lemma SimScore.eqvB_iff {x y : SimScore} (hx : 0 < x.normProd)
    (hy : 0 < y.normProd) : x.eqvB y = true ↔ x.toReal = y.toReal := by
  unfold SimScore.eqvB
  rw [Bool.and_eq_true, Bool.not_eq_true', Bool.not_eq_true']
  constructor
  · rintro ⟨h1, h2⟩
    have r1 : ¬ x.toReal < y.toReal := fun hc => by
      rw [(SimScore.ltB_iff hx hy).mpr hc] at h1; cases h1
    have r2 : ¬ y.toReal < x.toReal := fun hc => by
      rw [(SimScore.ltB_iff hy hx).mpr hc] at h2; cases h2
    linarith [not_lt.mp r1, not_lt.mp r2]
  · intro h
    constructor
    · rw [← Bool.not_eq_true]
      intro hc
      exact absurd ((SimScore.ltB_iff hx hy).mp hc) (by rw [h]; exact lt_irrefl _)
    · rw [← Bool.not_eq_true]
      intro hc
      exact absurd ((SimScore.ltB_iff hy hx).mp hc) (by rw [h]; exact lt_irrefl _)

/-- Decomposition of a stable insertion: the new element lands after
exactly those elements whose score is strictly greater. -/
lemma insertScored_decomp {α : Type} (x : SimScore × α)
    (l : List (SimScore × α)) :
    ∃ l₁ l₂, insertScored x l = l₁ ++ x :: l₂ ∧ l = l₁ ++ l₂ ∧
      ∀ h ∈ l₁, SimScore.ltB x.1 h.1 = true := by
  induction l with
  | nil => exact ⟨[], [], rfl, rfl, by simp⟩
  | cons h t ih =>
    by_cases hlt : SimScore.ltB x.1 h.1
    · obtain ⟨l₁, l₂, e1, e2, hall⟩ := ih
      refine ⟨h :: l₁, l₂, ?_, by simp [e2], ?_⟩
      · simp only [insertScored, hlt, if_true, e1, List.cons_append]
      · intro g hg
        rcases List.mem_cons.mp hg with rfl | hg'
        · exact hlt
        · exact hall g hg'
    · refine ⟨[], h :: t, ?_, rfl, by simp⟩
      simp [insertScored, hlt]

/-- Stable insertion permutes the cons. -/
lemma insertScored_perm {α : Type} (x : SimScore × α)
    (l : List (SimScore × α)) : (insertScored x l).Perm (x :: l) := by
  obtain ⟨l₁, l₂, e1, e2, _⟩ := insertScored_decomp x l
  rw [e1, e2]
  exact List.perm_middle

/-- Membership in a stable insertion. -/
lemma insertScored_mem {α : Type} {x p : SimScore × α}
    {l : List (SimScore × α)} :
    p ∈ insertScored x l ↔ p = x ∨ p ∈ l := by
  rw [(insertScored_perm x l).mem_iff, List.mem_cons]

/-- The stable sort permutes its input. -/
lemma sortDescStable_perm {α : Type} (l : List (SimScore × α)) :
    (sortDescStable l).Perm l := by
  induction l with
  | nil => exact List.Perm.refl _
  | cons x xs ih =>
    exact ((insertScored_perm x (sortDescStable xs)).trans (ih.cons x))

/-- Inserting into a descending-sorted list (of scores with positive
`normProd`) keeps it descending-sorted. -/
lemma insertScored_pairwise {α : Type} {x : SimScore × α}
    {l : List (SimScore × α)} (hx : 0 < x.1.normProd)
    (hl : ∀ p ∈ l, 0 < p.1.normProd)
    (hs : l.Pairwise (fun a b => a.1.ltB b.1 = false)) :
    (insertScored x l).Pairwise (fun a b => a.1.ltB b.1 = false) := by
  induction l with
  | nil => simp [insertScored]
  | cons h t ih =>
    have hh : 0 < h.1.normProd := hl h (by simp)
    have ht : ∀ p ∈ t, 0 < p.1.normProd := fun p hp => hl p (by simp [hp])
    rw [List.pairwise_cons] at hs
    obtain ⟨hhead, htail⟩ := hs
    by_cases hlt : SimScore.ltB x.1 h.1
    · simp only [insertScored, hlt, if_true]
      rw [List.pairwise_cons]
      refine ⟨?_, ih ht htail⟩
      intro p hp
      rcases insertScored_mem.mp hp with rfl | hp'
      · refine Bool.eq_false_iff.mpr (fun hc => ?_)
        have h1 := (SimScore.ltB_iff hx hh).mp hlt
        have h2 := (SimScore.ltB_iff hh hx).mp hc
        linarith
      · exact hhead p hp'
    · have hrw : insertScored x (h :: t) = x :: h :: t := by
        simp [insertScored, hlt]
      rw [hrw, List.pairwise_cons]
      constructor
      · intro p hp
        rcases List.mem_cons.mp hp with rfl | hp'
        · exact Bool.eq_false_iff.mpr hlt
        · have hp1 : 0 < p.1.normProd := ht p hp'
          have r1 : ¬ x.1.toReal < h.1.toReal := fun hc =>
            hlt ((SimScore.ltB_iff hx hh).mpr hc)
          have r2 : ¬ h.1.toReal < p.1.toReal := fun hc => by
            have hph := hhead p hp'
            rw [(SimScore.ltB_iff hh hp1).mpr hc] at hph
            cases hph
          refine Bool.eq_false_iff.mpr (fun hc => ?_)
          have := (SimScore.ltB_iff hx hp1).mp hc
          linarith [not_lt.mp r1, not_lt.mp r2]
      · exact List.pairwise_cons.mpr ⟨hhead, htail⟩

/-- The stable sort produces a descending-sorted list (on scores with
positive `normProd`). -/
lemma sortDescStable_pairwise {α : Type} {l : List (SimScore × α)}
    (hl : ∀ p ∈ l, 0 < p.1.normProd) :
    (sortDescStable l).Pairwise (fun a b => a.1.ltB b.1 = false) := by
  induction l with
  | nil => simp [sortDescStable]
  | cons x xs ih =>
    have hx : 0 < x.1.normProd := hl x (by simp)
    have hxs : ∀ p ∈ xs, 0 < p.1.normProd := fun p hp => hl p (by simp [hp])
    have hmem : ∀ p ∈ sortDescStable xs, 0 < p.1.normProd := fun p hp =>
      hxs p ((sortDescStable_perm xs).mem_iff.mp hp)
    exact insertScored_pairwise hx hmem (ih hxs)

/-- Stability of insertion: filtering by any fixed score class is
unchanged by inserting (where everything in sight has positive
`normProd`). -/
lemma filter_insertScored {α : Type} {x : SimScore × α}
    {l : List (SimScore × α)} {s : SimScore} (hx : 0 < x.1.normProd)
    (hs : 0 < s.normProd) (hl : ∀ p ∈ l, 0 < p.1.normProd) :
    (insertScored x l).filter (fun p => p.1.eqvB s) =
      if x.1.eqvB s then x :: l.filter (fun p => p.1.eqvB s)
      else l.filter (fun p => p.1.eqvB s) := by
  obtain ⟨l₁, l₂, e1, e2, hgt⟩ := insertScored_decomp x l
  rw [e1, e2, List.filter_append, List.filter_append, List.filter_cons]
  by_cases hPx : x.1.eqvB s
  · have hl₁ : l₁.filter (fun p => p.1.eqvB s) = [] := by
      rw [List.filter_eq_nil_iff]
      intro p hp
      have hp1 : 0 < p.1.normProd :=
        hl p (e2 ▸ List.mem_append_left l₂ hp)
      have hgt' := (SimScore.ltB_iff hx hp1).mp (hgt p hp)
      have hxs := (SimScore.eqvB_iff hx hs).mp hPx
      simp only [Bool.not_eq_true]
      refine Bool.eq_false_iff.mpr (fun hc => ?_)
      have := (SimScore.eqvB_iff hp1 hs).mp hc
      linarith
    simp [hl₁, hPx]
  · have hPx' : x.1.eqvB s = false := Bool.eq_false_iff.mpr hPx
    simp [hPx']

/-- Stability of the whole sort: filtering by any fixed score class
commutes with sorting, i.e. equal-score elements keep their input
(insertion) order. -/
lemma sortDescStable_filter {α : Type} {l : List (SimScore × α)}
    {s : SimScore} (hs : 0 < s.normProd)
    (hl : ∀ p ∈ l, 0 < p.1.normProd) :
    (sortDescStable l).filter (fun p => p.1.eqvB s) =
      l.filter (fun p => p.1.eqvB s) := by
  induction l with
  | nil => rfl
  | cons x xs ih =>
    have hx : 0 < x.1.normProd := hl x (by simp)
    have hxs : ∀ p ∈ xs, 0 < p.1.normProd := fun p hp => hl p (by simp [hp])
    have hmem : ∀ p ∈ sortDescStable xs, 0 < p.1.normProd := fun p hp =>
      hxs p ((sortDescStable_perm xs).mem_iff.mp hp)
    show (insertScored x (sortDescStable xs)).filter _ = _
    rw [filter_insertScored hx hs hmem, ih hxs, List.filter_cons]

/-- A Python slice `l[:k]` is a sublist. -/
lemma pySliceTo_sublist {β : Type} (l : List β) (k : ℤ) :
    List.Sublist (pySliceTo l k) l := by
  unfold pySliceTo
  split_ifs <;> exact List.take_sublist _ _

/-- Mismatched dimensions or a zero-norm stored vector yield a zero
cosine score. -/
lemma realCosine_zero {q v : List ℚ}
    (h : q.length ≠ v.length ∨ sumSq v = 0) : realCosine q v = 0 := by
  unfold realCosine
  split_ifs with h1 h2
  · rfl
  · rfl
  · push_neg at h1 h2
    rcases h with h | h
    · exact absurd h1.1 (by simp [h])
    · exact absurd h h2.2

/-- Claim C2 (amended): for `top_k ≥ 0`, `search_by_similarity` returns
at most `top_k` embeddings, each matching every filter, sorted by
descending cosine similarity `dot(a,b)/(‖a‖·‖b‖)`; embeddings scoring
`≤ 0` are excluded, dimension-mismatched and zero-norm vectors score 0
and are excluded, and ties (equal scores) are broken by insertion
order (the tied results form a sublist of the filtered store). -/
theorem claim_C2_search_amended {α : Type} [DecidableEq α]
    (store : List (Embedding α)) (q_vec : List ℚ) (top_k : ℤ)
    (filters : Option (List (String × α))) (htop : 0 ≤ top_k) :
    let res := searchBySimilarity store q_vec top_k filters
    ((res.length : ℤ) ≤ top_k) ∧
    (∀ e ∈ res, matchesFilters filters e = true) ∧
    res.Pairwise (fun e1 e2 =>
      realCosine q_vec e2.embedding ≤ realCosine q_vec e1.embedding) ∧
    (∀ e ∈ res, 0 < realCosine q_vec e.embedding) ∧
    (∀ e ∈ store, (q_vec.length ≠ e.embedding.length ∨ sumSq e.embedding = 0) →
      realCosine q_vec e.embedding = 0 ∧ e ∉ res) ∧
    (∀ s : SimScore, 0 < s.normProd →
      List.Sublist
        (res.filter (fun e => (cosineSimilarity q_vec e.embedding).eqvB s))
        (store.filter (fun e => matchesFilters filters e))) := by
  intro res
  by_cases hstore : store = []
  · subst hstore
    have hnil : res = [] := by
      show searchBySimilarity [] q_vec top_k filters = []
      rw [searchBySimilarity, if_pos rfl]
    rw [show res = ([] : List (Embedding α)) from hnil]
    exact ⟨by simpa using htop, by simp, by simp, by simp, by simp,
      fun s hs => by simp⟩
  · have hres : res = ((pySliceTo (sortDescStable
        ((store.filter (fun e => matchesFilters filters e)).map
          (fun e => (cosineSimilarity q_vec e.embedding, e)))) top_k).filter
        (fun p => p.1.posB)).map Prod.snd := by
      show searchBySimilarity store q_vec top_k filters = _
      rw [searchBySimilarity, if_neg hstore]
    rw [show res = _ from hres]
    set fStore := store.filter (fun e => matchesFilters filters e)
      with hfStoreEq
    set scored := fStore.map (fun e => (cosineSimilarity q_vec e.embedding, e))
      with hscoredEq
    set sorted := sortDescStable scored with hsortedEq
    set sliced := pySliceTo sorted top_k with hslicedEq
    set fsliced := sliced.filter (fun p => p.1.posB) with hfslicedEq
    have hscored_shape : ∀ p ∈ scored,
        p.1 = cosineSimilarity q_vec p.2.embedding ∧ p.2 ∈ fStore := by
      intro p hp
      obtain ⟨e, he, rfl⟩ := List.mem_map.mp hp
      exact ⟨rfl, he⟩
    have hscored_pos : ∀ p ∈ scored, 0 < p.1.normProd := fun p hp => by
      rw [(hscored_shape p hp).1]
      exact cosineSimilarity_normProd_pos _ _
    have hsorted_mem : ∀ p ∈ sorted, p ∈ scored := fun p hp =>
      (sortDescStable_perm scored).mem_iff.mp hp
    have hsliced_sub : List.Sublist sliced sorted := pySliceTo_sublist _ _
    have hfsliced_mem : ∀ p ∈ fsliced, p ∈ scored ∧ p.1.posB = true := by
      intro p hp
      obtain ⟨hp1, hp2⟩ := List.mem_filter.mp hp
      exact ⟨hsorted_mem p (hsliced_sub.subset hp1), hp2⟩
    have hpos_real : ∀ p ∈ fsliced, 0 < realCosine q_vec p.2.embedding := by
      intro p hp
      obtain ⟨hp1, hp2⟩ := hfsliced_mem p hp
      have hshape := (hscored_shape p hp1).1
      have hpn : 0 < p.1.normProd := hscored_pos p hp1
      have := (SimScore.posB_iff hpn).mp hp2
      rw [hshape, cosineSimilarity_toReal] at this
      exact this
    refine ⟨?_, ?_, ?_, ?_, ?_, ?_⟩
    · -- length bound
      have h1 : fsliced.length ≤ sliced.length := List.length_filter_le _ _
      have h2 : sliced.length ≤ top_k.toNat := by
        rw [hslicedEq, pySliceTo, if_pos htop]
        exact List.length_take_le _ _
      have h3 := Int.toNat_of_nonneg htop
      simp only [List.length_map]
      omega
    · -- filters
      intro e he
      obtain ⟨p, hp, rfl⟩ := List.mem_map.mp he
      have := (hscored_shape p (hfsliced_mem p hp).1).2
      exact (List.mem_filter.mp this).2
    · -- sorted by descending cosine
      have hsorted_pw := sortDescStable_pairwise hscored_pos
      have hfsliced_pw : List.Pairwise (fun a b => a.1.ltB b.1 = false)
          fsliced := by
        rw [hfslicedEq]
        exact (hsorted_pw.sublist hsliced_sub).sublist
          (List.filter_sublist _)
      rw [List.pairwise_map]
      refine List.Pairwise.imp_of_mem ?_ hfsliced_pw
      intro a b ha hb hR
      have ha1 := (hfsliced_mem a ha).1
      have hb1 := (hfsliced_mem b hb).1
      have hpa : 0 < a.1.normProd := hscored_pos a ha1
      have hpb : 0 < b.1.normProd := hscored_pos b hb1
      have hnot : ¬ a.1.toReal < b.1.toReal := fun hc => by
        rw [(SimScore.ltB_iff hpa hpb).mpr hc] at hR
        cases hR
      have hra := (hscored_shape a ha1).1
      have hrb := (hscored_shape b hb1).1
      rw [← cosineSimilarity_toReal, ← cosineSimilarity_toReal, ← hra, ← hrb]
      exact not_lt.mp hnot
    · -- positive scores only
      intro e he
      obtain ⟨p, hp, rfl⟩ := List.mem_map.mp he
      exact hpos_real p hp
    · -- mismatched / zero-norm vectors are excluded
      intro e _ hcond
      refine ⟨realCosine_zero hcond, fun hmem => ?_⟩
      obtain ⟨p, hp, hpe⟩ := List.mem_map.mp hmem
      have := hpos_real p hp
      rw [hpe, realCosine_zero hcond] at this
      exact lt_irrefl 0 this
    · -- ties broken by insertion order
      intro s hs
      rw [List.filter_map]
      have hcongr : fsliced.filter
          ((fun e => (cosineSimilarity q_vec e.embedding).eqvB s) ∘ Prod.snd) =
          fsliced.filter (fun p => p.1.eqvB s) := by
        refine List.filter_congr ?_
        intro p hp
        have := (hscored_shape p (hfsliced_mem p hp).1).1
        simp only [Function.comp]
        rw [← this]
      rw [hcongr]
      have hchain1 : List.Sublist (fsliced.filter (fun p => p.1.eqvB s))
          (sliced.filter (fun p => p.1.eqvB s)) :=
        List.Sublist.filter _ (List.filter_sublist _)
      have hchain2 : List.Sublist (sliced.filter (fun p => p.1.eqvB s))
          (sorted.filter (fun p => p.1.eqvB s)) :=
        List.Sublist.filter _ hsliced_sub
      have hchain3 : sorted.filter (fun p => p.1.eqvB s) =
          scored.filter (fun p => p.1.eqvB s) :=
        sortDescStable_filter hs hscored_pos
      have hchain4 : scored.filter (fun p => p.1.eqvB s) =
          (fStore.filter
            (fun e => (cosineSimilarity q_vec e.embedding).eqvB s)).map
            (fun e => (cosineSimilarity q_vec e.embedding, e)) := by
        rw [hscoredEq, List.filter_map]
        rfl
      have hfinal : List.Sublist
          ((fsliced.filter (fun p => p.1.eqvB s)).map Prod.snd)
          ((fStore.filter
            (fun e => (cosineSimilarity q_vec e.embedding).eqvB s)).map
            (fun e => (cosineSimilarity q_vec e.embedding, e)) |>.map
              Prod.snd) := by
        exact ((hchain1.trans hchain2).trans
          (hchain3 ▸ hchain4 ▸ List.Sublist.refl _)).map Prod.snd
      rw [List.map_map] at hfinal
      have hid : (fStore.filter
          (fun e => (cosineSimilarity q_vec e.embedding).eqvB s)).map
          (Prod.snd ∘ (fun e => (cosineSimilarity q_vec e.embedding, e))) =
          fStore.filter
            (fun e => (cosineSimilarity q_vec e.embedding).eqvB s) := by
        rw [show (Prod.snd ∘ (fun e : Embedding α =>
          (cosineSimilarity q_vec e.embedding, e))) = id from rfl, List.map_id]
      rw [hid] at hfinal
      exact hfinal.trans (List.filter_sublist _)

/-- Claim C2 as stated is false for negative `top_k`: Python's
`scored[:top_k]` drops only the last element when `top_k = -1`, so with
two positively-scoring stored embeddings one embedding is returned,
which is not "at most `top_k`" many. -/
theorem claim_C2_counterexample :
    searchBySimilarity
      [Embedding.mk 1 1 1 [] [(1 : ℚ)] ([] : List (String × String)),
       Embedding.mk 2 2 2 [] [(1 : ℚ)] []] [(1 : ℚ)] (-1) none =
      [Embedding.mk 1 1 1 [] [(1 : ℚ)] []] ∧
    ¬(((searchBySimilarity
      [Embedding.mk 1 1 1 [] [(1 : ℚ)] ([] : List (String × String)),
       Embedding.mk 2 2 2 [] [(1 : ℚ)] []] [(1 : ℚ)] (-1) none).length : ℤ)
        ≤ -1) := by
  have hcos : cosineSimilarity [(1 : ℚ)] [1] = ⟨1, 1⟩ := by
    norm_num [cosineSimilarity, sumSq, dotProd]
  have hltB : SimScore.ltB ⟨1, 1⟩ ⟨1, 1⟩ = false := by
    norm_num [SimScore.ltB]
  have hpos : SimScore.posB ⟨1, 1⟩ = true := by
    norm_num [SimScore.posB]
  have hsearch : searchBySimilarity
      [Embedding.mk 1 1 1 [] [(1 : ℚ)] ([] : List (String × String)),
       Embedding.mk 2 2 2 [] [(1 : ℚ)] []] [(1 : ℚ)] (-1) none =
      [Embedding.mk 1 1 1 [] [(1 : ℚ)] []] := by
    rw [searchBySimilarity, if_neg (by simp)]
    simp only [List.filter, matchesFilters, List.map, hcos]
    simp only [sortDescStable, insertScored, hltB, Bool.false_eq_true,
      if_false]
    simp only [pySliceTo, if_neg (by norm_num : ¬(0 : ℤ) ≤ -1)]
    norm_num [List.filter, hpos]
  refine ⟨hsearch, ?_⟩
  rw [hsearch]
  decide

/-- Witness for the amended C2 at a one-element store that matches and
scores positively. -/
theorem claim_C2_search_amended_witness :
    let res := searchBySimilarity
      [Embedding.mk 1 1 1 [] [(1 : ℚ)] ([] : List (String × String))]
      [(1 : ℚ)] 5 none
    ((res.length : ℤ) ≤ 5) ∧
    (∀ e ∈ res, matchesFilters none e = true) ∧
    res.Pairwise (fun e1 e2 =>
      realCosine [(1 : ℚ)] e2.embedding ≤ realCosine [(1 : ℚ)] e1.embedding) ∧
    (∀ e ∈ res, 0 < realCosine [(1 : ℚ)] e.embedding) ∧
    (∀ e ∈ [Embedding.mk 1 1 1 [] [(1 : ℚ)] ([] : List (String × String))],
      (([(1 : ℚ)] : List ℚ).length ≠ e.embedding.length ∨
        sumSq e.embedding = 0) →
      realCosine [(1 : ℚ)] e.embedding = 0 ∧ e ∉ res) ∧
    (∀ s : SimScore, 0 < s.normProd →
      List.Sublist
        (res.filter (fun e => (cosineSimilarity [(1 : ℚ)] e.embedding).eqvB s))
        ([Embedding.mk 1 1 1 [] [(1 : ℚ)]
          ([] : List (String × String))].filter
          (fun e => matchesFilters none e))) :=
  claim_C2_search_amended
    [Embedding.mk 1 1 1 [] [(1 : ℚ)] ([] : List (String × String))]
    [(1 : ℚ)] 5 none (by norm_num)

/-! ## C5 — `backend/core/generation_services.py`

`CitationExtractor.extract_citations`, `CitationValidator.validate`,
`AnswerProcessor.process`.  The regex `\[Source (\d+)\]` is modelled by
an explicit left-to-right non-overlapping scanner; UUIDs become natural
identifiers, and a citation-map entry's missing or unparseable
`chunk_id` string is modelled as `none`.  The extraction scanner uses a
fuel parameter (`length + 1` suffices: every step consumes at least one
character). -/

/-- Value of a digit string (the `int(...)` of the regex group). -/
def digitsToNat (ds : List Char) : ℕ :=
  ds.foldl (fun acc c => acc * 10 + (c.toNat - 48)) 0

/-- Try to match `\[Source (\d+)\]` at the head of `s`; return the
captured number and the length of the whole match. -/
def matchMarker (s : List Char) : Option (ℕ × ℕ) :=
  if leadsWith "[Source ".data s then
    if ((s.drop 8).takeWhile Char.isDigit) ≠ [] ∧
        leadsWith "]".data
          ((s.drop 8).drop ((s.drop 8).takeWhile Char.isDigit).length) then
      some (digitsToNat ((s.drop 8).takeWhile Char.isDigit),
        8 + ((s.drop 8).takeWhile Char.isDigit).length + 1)
    else none
  else none

/-- `re.finditer` scan: at each position try the pattern; on a match,
record `(value, start, end)` and continue after it, otherwise advance
one character. -/
def scanCitationsF : ℕ → List Char → ℕ → List (ℕ × ℕ × ℕ)
  | 0, _, _ => []
  | fuel + 1, s, pos =>
    match s with
    | [] => []
    | _ :: tl =>
      match matchMarker s with
      | some (v, len) =>
        (v, pos, pos + len) :: scanCitationsF fuel (s.drop len) (pos + len)
      | none => scanCitationsF fuel tl (pos + 1)

/-- All matches of the citation regex in `s`. -/
def scanCitations (s : List Char) : List (ℕ × ℕ × ℕ) :=
  scanCitationsF (s.length + 1) s 0

/-- `result.setdefault(index, []).append(span)` over an association
list in insertion order. -/
def setdefaultAppend {β : Type} :
    List (ℕ × List β) → ℕ → β → List (ℕ × List β)
  | [], k, v => [(k, [v])]
  | (k', vs) :: t, k, v =>
    if k' = k then (k', vs ++ [v]) :: t
    else (k', vs) :: setdefaultAppend t k v

/-- `CitationExtractor.extract_citations`: scan, keep the indices
`> 0`, and group the spans per index. -/
def extractCitations (answer_text : List Char) :
    List (ℕ × List (ℕ × ℕ)) :=
  if answer_text = [] then []
  else
    (scanCitations answer_text).foldl
      (fun result m =>
        if m.1 ≤ 0 then result
        else setdefaultAppend result m.1 (m.2.1, m.2.2))
      []

/-- Citation-map entry (`citation_map[index]`), restricted to the keys
`CitationValidator.validate` and `AnswerProcessor.process` read.  A
missing or unparseable `chunk_id`/`document_id` string is `none`; a
`page` value that is not an `int` is `none`. -/
structure CitationMeta where
  chunk_id : Option ℕ
  document_id : Option ℕ
  similarity_score : Option ℚ
  source_file : Option String
  page : Option ℤ
  preview : Option (List Char)
  deriving DecidableEq

/-- `backend.core.query_models.RetrievedChunk`, restricted to the
fields read here. -/
structure RetrievedChunk where
  chunk_id : ℕ
  content : List Char
  similarity_score : ℚ
  rank : ℕ
  document_id : Option ℕ
  deriving DecidableEq

/-- `backend.core.generation_models.CitationEntry`. -/
structure CitationEntry where
  source_index : ℕ
  chunk_id : ℕ
  document_id : Option ℕ
  source_file : Option String
  page : Option ℤ
  similarity_score : ℚ
  preview : List Char
  deriving DecidableEq

/-- `backend.core.generation_models.UsedChunk`. -/
structure UsedChunk where
  chunk_id : ℕ
  rank : ℕ
  similarity_score : ℚ
  content_preview : List Char
  deriving DecidableEq

/-- The dict comprehension `{chunk.chunk_id: chunk for chunk in
retrieved_chunks}`: on duplicate ids the last occurrence wins. -/
def chunkById (retrieved_chunks : List RetrievedChunk) (cid : ℕ) :
    Option RetrievedChunk :=
  retrieved_chunks.reverse.find? (fun c => c.chunk_id == cid)

/-- Ascending insertion sort on naturals (`sorted(...)`). -/
def insertNat (x : ℕ) : List ℕ → List ℕ
  | [] => [x]
  | h :: t => if h < x then h :: insertNat x t else x :: h :: t

/-- Ascending sort (`sorted(...)` over dict keys). -/
def sortNat : List ℕ → List ℕ
  | [] => []
  | x :: xs => insertNat x (sortNat xs)

/-- The preview fallback of `CitationValidator.validate`: the map's
`preview` unless falsy, else the chunk's first 150 characters, else
empty. -/
def previewOf (meta : CitationMeta) (chunk : Option RetrievedChunk) :
    List Char :=
  match meta.preview with
  | some p =>
    if p = [] then
      match chunk with
      | some c => c.content.take 150
      | none => []
    else p
  | none =>
    match chunk with
    | some c => c.content.take 150
    | none => []

/-- Process one extracted index exactly as the body of the `for index
in sorted(extracted_citations.keys())` loop does, appending either a
citation or a warning. -/
def validateStep (citation_map : List (ℕ × CitationMeta))
    (retrieved_chunks : List RetrievedChunk)
    (acc : List CitationEntry × List String) (index : ℕ) :
    List CitationEntry × List String :=
  match citation_map.lookup index with
  | none => (acc.1, acc.2 ++ ["Missing citation for [Source " ++ toString index ++ "]"])
  | some meta =>
    match meta.chunk_id with
    | none => (acc.1, acc.2 ++ ["Missing chunk_id for [Source " ++ toString index ++ "]"])
    | some cid =>
      let chunk := chunkById retrieved_chunks cid
      let similarity := meta.similarity_score.getD
        (match chunk with
         | some c => c.similarity_score
         | none => 0)
      let entry : CitationEntry :=
        { source_index := index
          chunk_id := cid
          document_id := meta.document_id
          source_file := meta.source_file
          page := meta.page
          similarity_score := similarity
          preview := previewOf meta chunk }
      (acc.1 ++ [entry], acc.2)

/-- `CitationValidator.validate`. -/
def validateCitations (extracted : List (ℕ × List (ℕ × ℕ)))
    (citation_map : List (ℕ × CitationMeta))
    (retrieved_chunks : List RetrievedChunk) :
    List CitationEntry × List String :=
  (sortNat (extracted.map Prod.fst)).foldl
    (validateStep citation_map retrieved_chunks) ([], [])

/-- The `for index in sorted(citation_map.keys())` loop of
`AnswerProcessor.process`, with `seen` the set of already-emitted
chunk ids. -/
def buildUsedChunks (citation_map : List (ℕ × CitationMeta))
    (retrieved_chunks : List RetrievedChunk) :
    List ℕ → List ℕ → List UsedChunk
  | [], _ => []
  | k :: rest, seen =>
    match citation_map.lookup k with
    | none => buildUsedChunks citation_map retrieved_chunks rest seen
    | some meta =>
      match meta.chunk_id with
      | none => buildUsedChunks citation_map retrieved_chunks rest seen
      | some cid =>
        if cid ∈ seen then
          buildUsedChunks citation_map retrieved_chunks rest seen
        else
          (match chunkById retrieved_chunks cid with
           | some c =>
             UsedChunk.mk cid c.rank c.similarity_score (c.content.take 100)
           | none =>
             UsedChunk.mk cid 0 (meta.similarity_score.getD 0)
               ((meta.preview.getD []).take 100)) ::
          buildUsedChunks citation_map retrieved_chunks rest (cid :: seen)

/-- `AnswerProcessor.process`: strip, extract, validate, and build the
used-chunks list from the citation map. -/
def answerProcess (llm_response : List Char)
    (citation_map : List (ℕ × CitationMeta))
    (retrieved_chunks : List RetrievedChunk) :
    List Char × List CitationEntry × List UsedChunk × List String :=
  let answer_text := pyStrip llm_response
  let extracted := extractCitations answer_text
  let cw := validateCitations extracted citation_map retrieved_chunks
  let used := buildUsedChunks citation_map retrieved_chunks
    (sortNat (citation_map.map Prod.fst)) []
  (answer_text, cw.1, used, cw.2)

/-- `leadsWith` is the prefix relation. -/
lemma leadsWith_iff (p s : List Char) :
    leadsWith p s = true ↔ ∃ t, s = p ++ t := by
  induction p generalizing s with
  | nil => simp [leadsWith]
  | cons c cs ih =>
    cases s with
    | nil => simp [leadsWith]
    | cons d ds =>
      rw [leadsWith, Bool.and_eq_true, beq_iff_eq, ih]
      constructor
      · rintro ⟨rfl, t, rfl⟩
        exact ⟨t, rfl⟩
      · rintro ⟨t, h⟩
        injection h with h1 h2
        exact ⟨h1.symm, t, h2⟩

/-- `hasSub` is the contiguous-substring relation. -/
lemma hasSub_iff (p s : List Char) :
    hasSub p s = true ↔ ∃ l r, s = l ++ p ++ r := by
  induction s with
  | nil =>
    rw [hasSub, leadsWith_iff]
    constructor
    · rintro ⟨t, ht⟩
      exact ⟨[], t, by simpa using ht⟩
    · rintro ⟨l, r, h⟩
      rw [eq_comm, List.append_eq_nil, List.append_eq_nil] at h
      exact ⟨[], by simp [h.1.2, h.2]⟩
  | cons c cs ih =>
    rw [hasSub, Bool.or_eq_true, leadsWith_iff, ih]
    constructor
    · rintro (⟨t, ht⟩ | ⟨l, r, h⟩)
      · exact ⟨[], t, by simpa using ht⟩
      · exact ⟨c :: l, r, by simp [h]⟩
    · rintro ⟨l, r, h⟩
      cases l with
      | nil => exact Or.inl ⟨r, by simpa using h⟩
      | cons x xs =>
        injection h with h1 h2
        exact Or.inr ⟨xs, r, h2⟩

/-- A substring of the tail is a substring. -/
lemma hasSub_of_drop {p s : List Char} {n : ℕ}
    (h : hasSub p (s.drop n) = true) : hasSub p s = true := by
  rw [hasSub_iff] at h ⊢
  obtain ⟨l, r, hl⟩ := h
  refine ⟨s.take n ++ l, r, ?_⟩
  conv_lhs => rw [← List.take_append_drop n s]
  rw [hl]
  simp [List.append_assoc]

/-- `takeWhile` over a run of satisfying characters followed by a
failing one. -/
lemma takeWhile_all_append {p : Char → Bool} {a : List Char} {b0 : Char}
    {r : List Char} (ha : ∀ c ∈ a, p c = true) (hb : p b0 = false) :
    (a ++ b0 :: r).takeWhile p = a := by
  induction a with
  | nil => simp [List.takeWhile_cons, hb]
  | cons x xs ih =>
    have hx : p x = true := ha x (by simp)
    simp only [List.cons_append, List.takeWhile_cons, hx, if_true]
    rw [ih (fun c hc => ha c (by simp [hc]))]

/-- The scanner pattern matches exactly at a marker. -/
lemma matchMarker_of_marker (ds r : List Char) (hne : ds ≠ [])
    (hdig : ∀ c ∈ ds, c.isDigit = true) :
    matchMarker ("[Source ".data ++ ds ++ ']' :: r) =
      some (digitsToNat ds, 9 + ds.length) := by
  have hassoc : "[Source ".data ++ ds ++ ']' :: r =
      "[Source ".data ++ (ds ++ ']' :: r) := by
    rw [List.append_assoc]
  unfold matchMarker
  rw [if_pos ((leadsWith_iff _ _).mpr ⟨ds ++ ']' :: r, hassoc⟩)]
  have h2 : ("[Source ".data ++ ds ++ ']' :: r).drop 8 = ds ++ ']' :: r := by
    rw [hassoc]
    exact List.drop_left' (by decide)
  simp only [h2]
  rw [takeWhile_all_append hdig (by decide)]
  rw [if_pos ⟨hne, by rw [List.drop_left]; simp [leadsWith]⟩]
  congr 1
  rw [Prod.mk.injEq]
  exact ⟨rfl, by omega⟩

/-- A successful pattern match decomposes the string as a marker. -/
lemma matchMarker_some {s : List Char} {v len : ℕ}
    (h : matchMarker s = some (v, len)) :
    ∃ ds rest, ds ≠ [] ∧ (∀ c ∈ ds, c.isDigit = true) ∧
      digitsToNat ds = v ∧ len = 9 + ds.length ∧
      s = "[Source ".data ++ ds ++ ']' :: rest := by
  unfold matchMarker at h
  split_ifs at h with h1 h2
  · obtain ⟨t, ht⟩ := (leadsWith_iff _ _).mp h1
    obtain ⟨hne, hbr⟩ := h2
    obtain ⟨t2, ht2⟩ := (leadsWith_iff _ _).mp hbr
    injection h with h'
    rw [Prod.mk.injEq] at h'
    refine ⟨(s.drop 8).takeWhile Char.isDigit, t2, hne, ?_, h'.1, by omega, ?_⟩
    · intro c hc
      exact List.mem_takeWhile_imp hc
    · have hdt : s.drop 8 =
          ((s.drop 8).takeWhile Char.isDigit) ++
            ((s.drop 8).dropWhile Char.isDigit) :=
        (List.takeWhile_append_dropWhile Char.isDigit (s.drop 8)).symm
      have hdrop := @List.drop_left' Char
        ((s.drop 8).takeWhile Char.isDigit)
        ((s.drop 8).dropWhile Char.isDigit) _ rfl
      rw [← hdt] at hdrop
      rw [hdrop] at ht2
      have htake : s.take 8 = "[Source ".data := by
        rw [ht]
        exact List.take_left' (by decide)
      have hsplit : s = "[Source ".data ++ s.drop 8 := by
        conv_lhs => rw [← List.take_append_drop 8 s]
        rw [htake]
      calc s = "[Source ".data ++ s.drop 8 := hsplit
        _ = "[Source ".data ++ (((s.drop 8).takeWhile Char.isDigit) ++
              ((s.drop 8).dropWhile Char.isDigit)) := by
            conv_lhs => rw [hdt]
        _ = "[Source ".data ++ (((s.drop 8).takeWhile Char.isDigit) ++
              (']' :: t2)) := by rw [ht2]; rfl
        _ = "[Source ".data ++ ((s.drop 8).takeWhile Char.isDigit) ++
              ']' :: t2 := by rw [List.append_assoc]

/-- A digit run followed by `]` determines itself inside a string. -/
lemma digitRun_unique {ds ds' r r' : List Char}
    (hd : ∀ c ∈ ds, c.isDigit = true) (hd' : ∀ c ∈ ds', c.isDigit = true)
    (h : ds ++ ']' :: r = ds' ++ ']' :: r') : ds = ds' := by
  have h1 : (ds ++ ']' :: r).takeWhile Char.isDigit = ds :=
    takeWhile_all_append hd (by decide)
  rw [h, takeWhile_all_append hd' (by decide)] at h1
  exact h1.symm

/-- Soundness of the scanner: every reported value comes from a marker
occurrence in the scanned string. -/
lemma scanCitationsF_sound {fuel : ℕ} {s : List Char} {pos : ℕ}
    {m : ℕ × ℕ × ℕ} (hm : m ∈ scanCitationsF fuel s pos) :
    ∃ ds, ds ≠ [] ∧ (∀ c ∈ ds, c.isDigit = true) ∧ digitsToNat ds = m.1 ∧
      hasSub ("[Source ".data ++ ds ++ [']']) s = true := by
  induction fuel generalizing s pos with
  | zero => simp [scanCitationsF] at hm
  | succ fuel ih =>
    match s with
    | [] => simp [scanCitationsF] at hm
    | c :: tl =>
      rw [scanCitationsF] at hm
      match hmm : matchMarker (c :: tl) with
      | some (v, len) =>
        rw [hmm] at hm
        obtain ⟨ds, rest, hne, hdig, hval, hlen, hdecomp⟩ :=
          matchMarker_some hmm
        rcases List.mem_cons.mp hm with rfl | hm'
        · refine ⟨ds, hne, hdig, hval, ?_⟩
          rw [hasSub_iff]
          exact ⟨[], rest, by rw [hdecomp]; simp⟩
        · obtain ⟨ds', hne', hdig', hval', hsub'⟩ := ih hm'
          exact ⟨ds', hne', hdig', hval', hasSub_of_drop hsub'⟩
      | none =>
        rw [hmm] at hm
        obtain ⟨ds', hne', hdig', hval', hsub'⟩ := ih hm
        refine ⟨ds', hne', hdig', hval', ?_⟩
        exact hasSub_of_drop (n := 1) hsub'

/-- The inner characters of a matched marker contain no `[`. -/
lemma marker_inner_no_bracket {ds : List Char}
    (hdig : ∀ c ∈ ds, c.isDigit = true) :
    '[' ∉ "Source ".data ++ ds ++ [']'] := by
  intro hmem
  rcases List.mem_append.mp hmem with hmem' | hmem'
  · rcases List.mem_append.mp hmem' with h | h
    · simp [String.data] at h
    · have := hdig _ h
      simp at this
  · simp at hmem'

/-- Completeness of the scanner: every marker occurrence is reported. -/
lemma scanCitationsF_complete {fuel : ℕ} (s : List Char) (pos : ℕ)
    (l ds r : List Char) (hfuel : s.length < fuel)
    (hdecomp : s = l ++ ("[Source ".data ++ ds ++ [']']) ++ r)
    (hne : ds ≠ []) (hdig : ∀ c ∈ ds, c.isDigit = true) :
    ∃ sp, (digitsToNat ds, sp) ∈ scanCitationsF fuel s pos := by
  induction fuel generalizing s pos l with
  | zero => omega
  | succ fuel ih =>
    cases s with
    | nil =>
      exfalso
      have := congrArg List.length hdecomp
      simp at this
      omega
    | cons c tl =>
      rw [scanCitationsF]
      match hmm : matchMarker (c :: tl) with
      | some (v, len) =>
        obtain ⟨ds', rest, hne', hdig', hval', hlen', hdecomp'⟩ :=
          matchMarker_some hmm
        by_cases hl : l = []
        · -- the occurrence is exactly where the scanner matched
          subst hl
          have e1 : (c :: tl : List Char) =
              "[Source ".data ++ (ds ++ ']' :: r) := by
            rw [hdecomp]
            simp
          have e2 : (c :: tl : List Char) =
              "[Source ".data ++ (ds' ++ ']' :: rest) := by
            rw [hdecomp']
            simp
          have hds : ds = ds' :=
            digitRun_unique hdig hdig'
              (List.append_cancel_left (e1.symm.trans e2))
          refine ⟨(pos, pos + len), ?_⟩
          rw [hds, hval']
          exact List.mem_cons_self _ _
        · -- the occurrence starts strictly after the match begins:
          -- it cannot start inside it, so it survives in the suffix
          have hq : l.length ≥ len := by
            by_contra hq
            push_neg at hq
            have hq1 : 1 ≤ l.length := by
              cases l with
              | nil => exact absurd rfl hl
              | cons _ _ => simp
            -- the character at offset `l.length` is the `[` of the marker
            have hdropq : (c :: tl).drop l.length =
                ("[Source ".data ++ ds ++ [']']) ++ r := by
              rw [hdecomp, List.append_assoc, List.drop_left]
            -- but that offset lies strictly inside the matched region
            have hlen7 : ("Source ".data).length = 7 := by decide
            have hlen8 : ("[Source ".data).length = 8 := by decide
            have hmatchsplit : ("[Source ".data ++ ds' ++ ']' :: rest :
                List Char) =
                ('[' :: ("Source ".data ++ ds' ++ [']'])) ++ rest := by
              simp
            have hinnerlen : ('[' :: ("Source ".data ++ ds' ++ [']'])
                : List Char).length = len := by
              simp only [List.length_cons, List.length_append,
                List.length_cons, List.length_nil, hlen7]
              omega
            have hinner : (c :: tl).drop l.length =
                ("Source ".data ++ ds' ++ [']']).drop (l.length - 1) ++
                  rest := by
              rw [hdecomp', hmatchsplit, List.drop_append_eq_append_drop]
              rw [show rest.drop (l.length -
                  ('[' :: ("Source ".data ++ ds' ++ [']'])
                    : List Char).length) = rest from by
                rw [hinnerlen, show l.length - len = 0 from by omega]
                rfl]
              congr 1
              cases hll : l.length with
              | zero => omega
              | succ n =>
                simp only [List.drop]
                try congr 1
                try omega
            have hinner_ne : ("Source ".data ++ ds' ++ [']']).drop
                (l.length - 1) ≠ [] := by
              intro hcon
              have := congrArg List.length hcon
              simp only [List.length_drop, List.length_nil,
                List.length_append, List.length_cons, hlen7] at this
              simp only [List.length_cons, List.length_append,
                List.length_nil] at hinnerlen
              omega
            obtain ⟨z, zs, hz⟩ := List.exists_cons_of_ne_nil hinner_ne
            have hhead : z = '[' := by
              have h1 := hdropq
              rw [hinner, hz] at h1
              have h2 : (("[Source ".data ++ ds ++ [']']) ++ r :
                  List Char) =
                  '[' :: (("Source ".data ++ ds ++ [']']) ++ r) := by
                simp
              rw [h2] at h1
              injection h1 with h3 _
            have hzmem : z ∈ "Source ".data ++ ds' ++ [']'] := by
              have : z ∈ ("Source ".data ++ ds' ++ [']']).drop
                  (l.length - 1) := by
                rw [hz]
                exact List.mem_cons_self _ _
              exact (List.drop_sublist _ _).subset this
            rw [hhead] at hzmem
            exact marker_inner_no_bracket hdig' hzmem
          -- recurse on the suffix after the match
          have hdecomp2 : (c :: tl).drop len =
              (l.drop len) ++ ("[Source ".data ++ ds ++ [']']) ++ r := by
            conv_lhs => rw [hdecomp]
            rw [List.append_assoc, List.drop_append_eq_append_drop]
            rw [show (("[Source ".data ++ ds ++ [']']) ++ r).drop
                (len - l.length) = ("[Source ".data ++ ds ++ [']']) ++ r
              from by rw [show len - l.length = 0 from by omega]; rfl]
            simp [List.append_assoc]
          have h9 : 9 ≤ len := by omega
          have hfl : ((c :: tl).drop len).length < fuel := by
            simp only [List.length_drop, List.length_cons]
            simp only [List.length_cons] at hfuel
            omega
          obtain ⟨sp, hsp⟩ := ih ((c :: tl).drop len) (pos + len)
            (l.drop len) hfl hdecomp2
          exact ⟨sp, List.mem_cons_of_mem _ hsp⟩
      | none =>
        -- no match here, so the occurrence cannot start at this position
        cases l with
        | nil =>
          exfalso
          rw [hdecomp] at hmm
          rw [show ([] ++ ("[Source ".data ++ ds ++ [']']) ++ r :
            List Char) = "[Source ".data ++ ds ++ ']' :: r from by
              simp] at hmm
          rw [matchMarker_of_marker ds r hne hdig] at hmm
          cases hmm
        | cons x l' =>
          have hxtl : (c :: tl : List Char) =
              x :: ((l' ++ ("[Source ".data ++ ds ++ [']'])) ++ r) := by
            rw [hdecomp]
            simp
          injection hxtl with _ htl
          have hfl : tl.length < fuel := by
            simp only [List.length_cons] at hfuel
            omega
          obtain ⟨sp, hsp⟩ := ih tl (pos + 1) l' hfl (by rw [htl])
          exact ⟨sp, hsp⟩

/-- Keys of `setdefaultAppend`. -/
lemma setdefaultAppend_keys {β : Type} (l : List (ℕ × List β)) (k : ℕ)
    (v : β) (k' : ℕ) :
    k' ∈ (setdefaultAppend l k v).map Prod.fst ↔
      k' ∈ l.map Prod.fst ∨ k' = k := by
  induction l with
  | nil => simp [setdefaultAppend]
  | cons h t ih =>
    obtain ⟨a, b⟩ := h
    by_cases hk : a = k
    · subst hk
      rw [show setdefaultAppend ((a, b) :: t) a v =
        (a, b ++ [v]) :: t from by simp [setdefaultAppend]]
      simp only [List.map_cons, List.mem_cons]
      tauto
    · rw [show setdefaultAppend ((a, b) :: t) k v =
        (a, b) :: setdefaultAppend t k v from by
          simp [setdefaultAppend, hk]]
      simp only [List.map_cons, List.mem_cons, ih]
      tauto

/-- The keys of `extract_citations`: exactly the positive scanner
values. -/
lemma extractCitations_keys (a : List Char) (k : ℕ) :
    k ∈ (extractCitations a).map Prod.fst ↔
      1 ≤ k ∧ ∃ sp, (k, sp) ∈ scanCitations a := by
  have hfold : ∀ (ms : List (ℕ × ℕ × ℕ)) (init : List (ℕ × List (ℕ × ℕ))),
      k ∈ (ms.foldl (fun result m =>
          if m.1 ≤ 0 then result
          else setdefaultAppend result m.1 (m.2.1, m.2.2)) init).map
        Prod.fst ↔
      k ∈ init.map Prod.fst ∨ (1 ≤ k ∧ ∃ sp, (k, sp) ∈ ms) := by
    intro ms
    induction ms with
    | nil => simp
    | cons m ms ih =>
      intro init
      rw [List.foldl_cons, ih]
      by_cases hm : m.1 ≤ 0
      · rw [if_pos hm]
        constructor
        · rintro (h | h)
          · exact Or.inl h
          · exact Or.inr ⟨h.1, h.2.choose, List.mem_cons_of_mem _ h.2.choose_spec⟩
        · rintro (h | ⟨h1, sp, hsp⟩)
          · exact Or.inl h
          · rcases List.mem_cons.mp hsp with heq | hmem
            · exfalso
              have hmk : m.1 = k := (congrArg Prod.fst heq).symm
              omega
            · exact Or.inr ⟨h1, sp, hmem⟩
      · rw [if_neg hm, setdefaultAppend_keys]
        push_neg at hm
        constructor
        · rintro ((h | rfl) | h)
          · exact Or.inl h
          · exact Or.inr ⟨hm, m.2, List.mem_cons_self _ _⟩
          · exact Or.inr ⟨h.1, h.2.choose,
              List.mem_cons_of_mem _ h.2.choose_spec⟩
        · rintro (h | ⟨h1, sp, hsp⟩)
          · exact Or.inl (Or.inl h)
          · rcases List.mem_cons.mp hsp with heq | hmem
            · exact Or.inl (Or.inr (congrArg Prod.fst heq))
            · exact Or.inr ⟨h1, sp, hmem⟩
  unfold extractCitations
  split_ifs with ha
  · subst ha
    simp [scanCitations, scanCitationsF]
  · rw [hfold]
    simp

/-- Lookup result that makes an index "good": present in the map with
a usable `chunk_id`. -/
def goodKeyB (citation_map : List (ℕ × CitationMeta)) (n : ℕ) : Bool :=
  match citation_map.lookup n with
  | some meta => meta.chunk_id.isSome
  | none => false

/-- The chunk ids referenced by the citation-map entries along an
iteration order. -/
def refsOf (citation_map : List (ℕ × CitationMeta)) (ks : List ℕ) :
    List ℕ :=
  ks.filterMap (fun k => (citation_map.lookup k).bind
    (fun meta => meta.chunk_id))

/-- The chunk ids referenced by the citation map, in ascending key
order. -/
def referencedIds (citation_map : List (ℕ × CitationMeta)) : List ℕ :=
  refsOf citation_map (sortNat (citation_map.map Prod.fst))

/-- `insertNat` permutes the cons. -/
lemma insertNat_perm (x : ℕ) (l : List ℕ) :
    (insertNat x l).Perm (x :: l) := by
  induction l with
  | nil => exact List.Perm.refl _
  | cons h t ih =>
    by_cases hlt : h < x
    · rw [show insertNat x (h :: t) = h :: insertNat x t from by
        simp [insertNat, hlt]]
      exact (ih.cons h).trans (List.Perm.swap x h t)
    · rw [show insertNat x (h :: t) = x :: h :: t from by
        simp [insertNat, hlt]]

/-- `sortNat` permutes its input. -/
lemma sortNat_perm (l : List ℕ) : (sortNat l).Perm l := by
  induction l with
  | nil => exact List.Perm.refl _
  | cons x xs ih => exact (insertNat_perm x (sortNat xs)).trans (ih.cons x)

/-- `insertNat` preserves ascending sortedness. -/
lemma insertNat_sorted {x : ℕ} {l : List ℕ}
    (h : l.Pairwise (· ≤ ·)) :
    (insertNat x l).Pairwise (· ≤ ·) := by
  induction l with
  | nil => simp [insertNat]
  | cons hd t ih =>
    rw [List.pairwise_cons] at h
    obtain ⟨hhd, ht⟩ := h
    by_cases hlt : hd < x
    · rw [show insertNat x (hd :: t) = hd :: insertNat x t from by
        simp [insertNat, hlt]]
      rw [List.pairwise_cons]
      refine ⟨?_, ih ht⟩
      intro b hb
      rcases List.mem_cons.mp ((insertNat_perm x t).mem_iff.mp hb) with
        rfl | hbt
      · omega
      · exact hhd b hbt
    · rw [show insertNat x (hd :: t) = x :: hd :: t from by
        simp [insertNat, hlt]]
      rw [List.pairwise_cons]
      refine ⟨?_, List.pairwise_cons.mpr ⟨hhd, ht⟩⟩
      intro b hb
      rcases List.mem_cons.mp hb with rfl | hbt
      · omega
      · exact le_trans (by omega) (hhd b hbt)

/-- `sortNat` sorts ascending. -/
lemma sortNat_sorted (l : List ℕ) : (sortNat l).Pairwise (· ≤ ·) := by
  induction l with
  | nil => simp [sortNat]
  | cons x xs ih => exact insertNat_sorted ih

/-- Behaviour of the validation fold over any iteration order: good
indices append citations in order, bad ones append warnings. -/
lemma validate_foldl_char (citation_map : List (ℕ × CitationMeta))
    (chunks : List RetrievedChunk) (ks : List ℕ)
    (acc : List CitationEntry × List String) :
    ((ks.foldl (validateStep citation_map chunks) acc).1.map
        (fun ce => ce.source_index) =
      acc.1.map (fun ce => ce.source_index) ++
        ks.filter (goodKeyB citation_map)) ∧
    ((ks.foldl (validateStep citation_map chunks) acc).2.length =
      acc.2.length +
        (ks.filter (fun n => !goodKeyB citation_map n)).length) ∧
    (∀ ce ∈ (ks.foldl (validateStep citation_map chunks) acc).1,
      ce ∈ acc.1 ∨ ∃ meta, citation_map.lookup ce.source_index = some meta ∧
        meta.chunk_id = some ce.chunk_id) := by
  induction ks generalizing acc with
  | nil => exact ⟨by simp, by simp, fun ce hce => Or.inl hce⟩
  | cons k ks ih =>
    cases hlk : citation_map.lookup k with
    | none =>
      have hgood : goodKeyB citation_map k = false := by
        simp [goodKeyB, hlk]
      have hstep : validateStep citation_map chunks acc k =
          (acc.1, acc.2 ++
            ["Missing citation for [Source " ++ toString k ++ "]"]) := by
        simp [validateStep, hlk]
      rw [List.foldl_cons, hstep]
      obtain ⟨ih1, ih2, ih3⟩ := ih (acc.1, acc.2 ++
        ["Missing citation for [Source " ++ toString k ++ "]"])
      refine ⟨?_, ?_, ?_⟩
      · rw [ih1, List.filter_cons, hgood]
        simp
      · rw [ih2, List.filter_cons, hgood]
        simp
        omega
      · exact ih3
    | some meta =>
      cases hcid : meta.chunk_id with
      | none =>
        have hgood : goodKeyB citation_map k = false := by
          simp [goodKeyB, hlk, hcid]
        have hstep : validateStep citation_map chunks acc k =
            (acc.1, acc.2 ++
              ["Missing chunk_id for [Source " ++ toString k ++ "]"]) := by
          simp [validateStep, hlk, hcid]
        rw [List.foldl_cons, hstep]
        obtain ⟨ih1, ih2, ih3⟩ := ih (acc.1, acc.2 ++
          ["Missing chunk_id for [Source " ++ toString k ++ "]"])
        refine ⟨?_, ?_, ?_⟩
        · rw [ih1, List.filter_cons, hgood]
          simp
        · rw [ih2, List.filter_cons, hgood]
          simp
          omega
        · exact ih3
      | some cid =>
        have hgood : goodKeyB citation_map k = true := by
          simp [goodKeyB, hlk, hcid]
        obtain ⟨entry, hstep, hsi, hci⟩ :
            ∃ entry, validateStep citation_map chunks acc k =
              (acc.1 ++ [entry], acc.2) ∧
            entry.source_index = k ∧ entry.chunk_id = cid := by
          simp only [validateStep, hlk, hcid]
          exact ⟨_, rfl, rfl, rfl⟩
        rw [List.foldl_cons, hstep]
        obtain ⟨ih1, ih2, ih3⟩ := ih (acc.1 ++ [entry], acc.2)
        refine ⟨?_, ?_, ?_⟩
        · rw [ih1, List.filter_cons, hgood]
          simp [hsi, List.append_assoc]
        · rw [ih2, List.filter_cons, hgood]
          simp
        · intro ce hce
          rcases ih3 ce hce with hmem | hex
          · rcases List.mem_append.mp hmem with hacc | hone
            · exact Or.inl hacc
            · have : ce = entry := by simpa using hone
              subst this
              exact Or.inr ⟨meta, by rw [hsi]; exact hlk, by
                rw [hci, hcid]⟩
          · exact Or.inr hex

/-- Behaviour of the used-chunks loop: first occurrence of every
referenced chunk id not yet seen, in iteration order. -/
lemma buildUsedChunks_char (citation_map : List (ℕ × CitationMeta))
    (chunks : List RetrievedChunk) (ks : List ℕ) (seen : List ℕ) :
    List.Sublist
      ((buildUsedChunks citation_map chunks ks seen).map
        (fun u => u.chunk_id)) (refsOf citation_map ks) ∧
    ((buildUsedChunks citation_map chunks ks seen).map
      (fun u => u.chunk_id)).Nodup ∧
    (∀ cid, cid ∈ (buildUsedChunks citation_map chunks ks seen).map
        (fun u => u.chunk_id) ↔
      (cid ∈ refsOf citation_map ks ∧ cid ∉ seen)) := by
  induction ks generalizing seen with
  | nil => simp [buildUsedChunks, refsOf]
  | cons k ks ih =>
    cases hlk : citation_map.lookup k with
    | none =>
      have hb : buildUsedChunks citation_map chunks (k :: ks) seen =
          buildUsedChunks citation_map chunks ks seen := by
        simp [buildUsedChunks, hlk]
      have hr : refsOf citation_map (k :: ks) = refsOf citation_map ks := by
        simp [refsOf, hlk]
      rw [hb, hr]
      exact ih seen
    | some meta =>
      cases hcid : meta.chunk_id with
      | none =>
        have hb : buildUsedChunks citation_map chunks (k :: ks) seen =
            buildUsedChunks citation_map chunks ks seen := by
          simp [buildUsedChunks, hlk, hcid]
        have hr : refsOf citation_map (k :: ks) = refsOf citation_map ks := by
          simp [refsOf, hlk, hcid]
        rw [hb, hr]
        exact ih seen
      | some cid =>
        have hr : refsOf citation_map (k :: ks) =
            cid :: refsOf citation_map ks := by
          simp [refsOf, hlk, hcid]
        by_cases hseen : cid ∈ seen
        · have hb : buildUsedChunks citation_map chunks (k :: ks) seen =
              buildUsedChunks citation_map chunks ks seen := by
            simp [buildUsedChunks, hlk, hcid, hseen]
          rw [hb, hr]
          obtain ⟨ihs, ihn, ihm⟩ := ih seen
          refine ⟨ihs.trans (List.sublist_cons_self _ _), ihn, ?_⟩
          intro cid'
          rw [ihm]
          constructor
          · rintro ⟨h1, h2⟩
            exact ⟨List.mem_cons_of_mem _ h1, h2⟩
          · rintro ⟨h1, h2⟩
            rcases List.mem_cons.mp h1 with rfl | h1'
            · exact absurd hseen h2
            · exact ⟨h1', h2⟩
        · obtain ⟨u, hu, hbu⟩ :
              ∃ u, u.chunk_id = cid ∧
                buildUsedChunks citation_map chunks (k :: ks) seen =
                  u :: buildUsedChunks citation_map chunks ks
                    (cid :: seen) := by
            cases hcb : chunkById chunks cid with
            | some c =>
              refine ⟨UsedChunk.mk cid c.rank c.similarity_score
                (c.content.take 100), rfl, ?_⟩
              simp [buildUsedChunks, hlk, hcid, hseen, hcb]
            | none =>
              refine ⟨UsedChunk.mk cid 0 (meta.similarity_score.getD 0)
                ((meta.preview.getD []).take 100), rfl, ?_⟩
              simp [buildUsedChunks, hlk, hcid, hseen, hcb]
          rw [hbu, hr]
          obtain ⟨ihs, ihn, ihm⟩ := ih (cid :: seen)
          refine ⟨?_, ?_, ?_⟩
          · simp only [List.map_cons, hu]
            exact ihs.cons₂ cid
          · simp only [List.map_cons, hu, List.nodup_cons]
            refine ⟨fun hmem => ?_, ihn⟩
            have := (ihm cid).mp hmem
            exact this.2 (List.mem_cons_self _ _)
          · intro cid'
            simp only [List.map_cons, hu, List.mem_cons]
            rw [ihm]
            constructor
            · rintro (rfl | ⟨h1, h2⟩)
              · exact ⟨Or.inl rfl, hseen⟩
              · exact ⟨Or.inr h1,
                  fun hc => h2 (List.mem_cons_of_mem _ hc)⟩
            · rintro ⟨h1, h2⟩
              rcases h1 with rfl | h1'
              · exact Or.inl rfl
              · by_cases hcc : cid' = cid
                · exact Or.inl hcc
                · exact Or.inr ⟨h1', by
                    intro hc
                    rcases List.mem_cons.mp hc with rfl | hc'
                    · exact hcc rfl
                    · exact h2 hc'⟩

/-- Claim C5 as stated is false: a citation-map entry without a usable
`chunk_id` does not yield a `CitationEntry` even though its index is a
key of the map — the validator appends a warning instead. -/
theorem claim_C5_counterexample :
    let meta : CitationMeta := ⟨none, none, none, none, none, none⟩
    let r := answerProcess "[Source 1]".data [(1, meta)] []
    extractCitations r.1 = [(1, [(0, 10)])] ∧
    r.2.1 = [] ∧ r.2.2.2 = ["Missing chunk_id for [Source 1]"] := by
  decide

/-- Claim C5 (amended): `AnswerProcessor.process` extracts exactly the
`[Source N]` regex matches with `N ≥ 1` from the returned answer; each
extracted `N` that is a key of `citation_map` **whose entry carries a
usable `chunk_id`** yields a `CitationEntry` (in ascending index
order), while every other extracted `N` — missing from the map **or
lacking a chunk_id** — appends a warning; and `used_chunks` contains
each `chunk_id` referenced by the citation map exactly once, in
ascending citation-index order. -/
theorem claim_C5_process_amended (llm_response : List Char)
    (citation_map : List (ℕ × CitationMeta))
    (retrieved_chunks : List RetrievedChunk) :
    let r := answerProcess llm_response citation_map retrieved_chunks
    let keys := (extractCitations r.1).map Prod.fst
    (∀ k ∈ keys, 1 ≤ k ∧ ∃ ds, ds ≠ [] ∧ (∀ c ∈ ds, c.isDigit = true) ∧
      digitsToNat ds = k ∧
      hasSub ("[Source ".data ++ ds ++ [']']) r.1 = true) ∧
    (∀ ds, ds ≠ [] → (∀ c ∈ ds, c.isDigit = true) →
      1 ≤ digitsToNat ds →
      hasSub ("[Source ".data ++ ds ++ [']']) r.1 = true →
      digitsToNat ds ∈ keys) ∧
    (r.2.1.map (fun ce => ce.source_index) =
      (sortNat keys).filter (goodKeyB citation_map)) ∧
    (r.2.2.2.length =
      ((sortNat keys).filter (fun n => !goodKeyB citation_map n)).length) ∧
    (∀ ce ∈ r.2.1, ∃ meta,
      citation_map.lookup ce.source_index = some meta ∧
      meta.chunk_id = some ce.chunk_id) ∧
    ((r.2.2.1.map (fun u => u.chunk_id)).Nodup ∧
      List.Sublist (r.2.2.1.map (fun u => u.chunk_id))
        (referencedIds citation_map) ∧
      (∀ cid, cid ∈ r.2.2.1.map (fun u => u.chunk_id) ↔
        cid ∈ referencedIds citation_map)) ∧
    (sortNat (citation_map.map Prod.fst)).Pairwise (· ≤ ·) := by
  intro r keys
  have hr1 : r.1 = pyStrip llm_response := rfl
  have hcit : r.2.1 = (validateCitations (extractCitations r.1)
      citation_map retrieved_chunks).1 := rfl
  have hwarn : r.2.2.2 = (validateCitations (extractCitations r.1)
      citation_map retrieved_chunks).2 := rfl
  have hused : r.2.2.1 = buildUsedChunks citation_map retrieved_chunks
      (sortNat (citation_map.map Prod.fst)) [] := rfl
  refine ⟨?_, ?_, ?_, ?_, ?_, ?_, sortNat_sorted _⟩
  · -- extraction soundness
    intro k hk
    obtain ⟨h1, sp, hsp⟩ := (extractCitations_keys r.1 k).mp hk
    obtain ⟨ds, hne, hdig, hval, hsub⟩ := scanCitationsF_sound hsp
    exact ⟨h1, ds, hne, hdig, hval, hsub⟩
  · -- extraction completeness
    intro ds hne hdig h1 hsub
    obtain ⟨l, rr, hdecomp⟩ := (hasSub_iff _ _).mp hsub
    obtain ⟨sp, hsp⟩ := @scanCitationsF_complete (r.1.length + 1) r.1 0 l ds rr
      (by omega) hdecomp hne hdig
    exact (extractCitations_keys r.1 _).mpr ⟨h1, sp, hsp⟩
  · -- citations are exactly the good extracted indices, ascending
    rw [hcit]
    have := (validate_foldl_char citation_map retrieved_chunks
      (sortNat ((extractCitations r.1).map Prod.fst)) ([], [])).1
    simpa using this
  · -- one warning for every bad extracted index
    rw [hwarn]
    have := (validate_foldl_char citation_map retrieved_chunks
      (sortNat ((extractCitations r.1).map Prod.fst)) ([], [])).2.1
    simpa using this
  · -- each citation is populated from the map entry
    intro ce hce
    rw [hcit] at hce
    have := (validate_foldl_char citation_map retrieved_chunks
      (sortNat ((extractCitations r.1).map Prod.fst)) ([], [])).2.2 ce hce
    rcases this with hmem | hex
    · simp at hmem
    · exact hex
  · -- used chunks: unique referenced ids in ascending key order
    rw [hused]
    obtain ⟨hsub, hnodup, hmem⟩ := buildUsedChunks_char citation_map
      retrieved_chunks (sortNat (citation_map.map Prod.fst)) []
    refine ⟨hnodup, hsub, ?_⟩
    intro cid
    rw [hmem cid]
    simp [referencedIds]

/-- Witness for the amended C5 at the counterexample's concrete input. -/
theorem claim_C5_process_amended_witness :
    let r := answerProcess "[Source 1]".data
      [(1, CitationMeta.mk none none none none none none)] []
    let keys := (extractCitations r.1).map Prod.fst
    (∀ k ∈ keys, 1 ≤ k ∧ ∃ ds, ds ≠ [] ∧ (∀ c ∈ ds, c.isDigit = true) ∧
      digitsToNat ds = k ∧
      hasSub ("[Source ".data ++ ds ++ [']']) r.1 = true) ∧
    (∀ ds, ds ≠ [] → (∀ c ∈ ds, c.isDigit = true) →
      1 ≤ digitsToNat ds →
      hasSub ("[Source ".data ++ ds ++ [']']) r.1 = true →
      digitsToNat ds ∈ keys) ∧
    (r.2.1.map (fun ce => ce.source_index) =
      (sortNat keys).filter
        (goodKeyB [(1, CitationMeta.mk none none none none none none)])) ∧
    (r.2.2.2.length =
      ((sortNat keys).filter (fun n =>
        !goodKeyB [(1, CitationMeta.mk none none none none none none)]
          n)).length) ∧
    (∀ ce ∈ r.2.1, ∃ meta,
      List.lookup ce.source_index
        [(1, CitationMeta.mk none none none none none none)] = some meta ∧
      meta.chunk_id = some ce.chunk_id) ∧
    ((r.2.2.1.map (fun u => u.chunk_id)).Nodup ∧
      List.Sublist (r.2.2.1.map (fun u => u.chunk_id))
        (referencedIds
          [(1, CitationMeta.mk none none none none none none)]) ∧
      (∀ cid, cid ∈ r.2.2.1.map (fun u => u.chunk_id) ↔
        cid ∈ referencedIds
          [(1, CitationMeta.mk none none none none none none)])) ∧
    (sortNat ([(1, CitationMeta.mk none none none none none none)].map
      Prod.fst)).Pairwise (· ≤ ·) :=
  claim_C5_process_amended "[Source 1]".data
    [(1, CitationMeta.mk none none none none none none)] []

/-! ### C6: sliding-window rate limiter (`rate_limiter.py`) -/


def is_allowed (limit : ℕ) (window_seconds : ℚ)
    (st : String → List ℚ) (user_id : String) (now : ℚ) :
    (String → List ℚ) × Bool × Option ℤ :=
  let window_start := now - window_seconds
  let kept := (st user_id).filter (fun ts => decide (window_start < ts))
  if kept.length < limit then
    (Function.update st user_id (kept ++ [now]), true, none)
  else
    (Function.update st user_id kept, false,
      kept.head?.map (fun oldest => ⌊oldest - window_start⌋ + 1))

def rlRun (limit : ℕ) (window_seconds : ℚ) (st : String → List ℚ) :
    List (String × ℚ) → List ((String × ℚ) × Bool × Option ℤ)
  | [] => []
  | c :: cs =>
    let r := is_allowed limit window_seconds st c.1 c.2
    (c, r.2) :: rlRun limit window_seconds r.1 cs

def allowCount (u : String) (lo hi : ℚ)
    (rs : List ((String × ℚ) × Bool × Option ℤ)) : ℕ :=
  rs.countP (fun e =>
    decide (e.1.1 = u) && e.2.1 && decide (lo < e.1.2) && decide (e.1.2 ≤ hi))

def allowCountGT (u : String) (θ : ℚ)
    (rs : List ((String × ℚ) × Bool × Option ℤ)) : ℕ :=
  rs.countP (fun e => decide (e.1.1 = u) && e.2.1 && decide (θ < e.1.2))

lemma rlRun_map_fst (limit : ℕ) (W : ℚ) :
    ∀ (trace : List (String × ℚ)) (st : String → List ℚ),
    (rlRun limit W st trace).map Prod.fst = trace
  | [], _ => rfl
  | c :: cs, st => by
    simp only [rlRun, List.map_cons]
    exact congrArg (c :: ·) (rlRun_map_fst limit W cs _)

lemma rlRun_allowGT_lt (limit : ℕ) (W : ℚ) (u : String) (t : ℚ) :
    ∀ (trace : List (String × ℚ)) (st : String → List ℚ),
    List.Pairwise (fun a b => a.2 ≤ b.2) trace →
    ∀ rs₁ ro rs₂,
    rlRun limit W st trace = rs₁ ++ ((u, t), true, ro) :: rs₂ →
    allowCountGT u (t - W) rs₁
      + (st u).countP (fun x => decide (t - W < x)) < limit := by
  intro trace
  induction trace with
  | nil => intro st _ rs₁ ro rs₂ h; cases rs₁ <;> simp [rlRun] at h
  | cons c cs ih =>
    obtain ⟨v, tc⟩ := c
    intro st hmono rs₁ ro rs₂ h
    simp only [rlRun] at h
    by_cases hlt :
        ((st v).filter (fun ts => decide (tc - W < ts))).length < limit
    · -- head call allowed
      have hr : is_allowed limit W st v tc =
          (Function.update st v
            ((st v).filter (fun ts => decide (tc - W < ts)) ++ [tc]),
            true, none) := by
        simp only [is_allowed]
        rw [if_pos hlt]
      rw [hr] at h
      cases rs₁ with
      | nil =>
        simp only [List.nil_append, List.cons.injEq] at h
        have hc : ((v, tc) : String × ℚ) = (u, t) := congrArg Prod.fst h.1
        rw [Prod.mk.injEq] at hc
        obtain ⟨hv, htc⟩ := hc
        subst hv; subst htc
        simpa [allowCountGT, List.countP_eq_length_filter] using hlt
      | cons c' rs₁' =>
        simp only [List.cons_append, List.cons.injEq] at h
        obtain ⟨hc', htail⟩ := h
        have hih := ih _ hmono.of_cons rs₁' ro rs₂ htail
        simp only [allowCountGT] at hih ⊢
        have hmem : ((u, t) : String × ℚ) ∈ cs := by
          have h1 : (((u, t), true, ro) : (String × ℚ) × Bool × Option ℤ)
              ∈ rs₁' ++ ((u, t), true, ro) :: rs₂ :=
            List.mem_append_right _ (List.mem_cons_self _ _)
          rw [← htail] at h1
          have h2 := List.mem_map_of_mem Prod.fst h1
          rwa [rlRun_map_fst] at h2
        have hct : tc ≤ t := (List.pairwise_cons.mp hmono).1 _ hmem
        rw [← hc', List.countP_cons]
        by_cases hvu : v = u
        · subst hvu
          rw [Function.update_same, List.countP_append,
            List.countP_cons, List.countP_nil] at hih
          have hkey : (st v).countP (fun x => decide (t - W < x)) =
              ((st v).filter
                (fun ts => decide (tc - W < ts))).countP
                (fun x => decide (t - W < x)) := by
            rw [List.countP_filter]
            refine le_antisymm (List.countP_mono_left ?_)
              (List.countP_mono_left ?_)
            · intro x _ hx
              simp only [decide_eq_true_eq] at hx
              simp only [Bool.and_eq_true, decide_eq_true_eq]
              exact ⟨hx, by linarith⟩
            · intro x _ hx
              simp only [Bool.and_eq_true, decide_eq_true_eq] at hx
              simp only [decide_eq_true_eq]
              exact hx.1
          rw [hkey]
          by_cases hwc : t - W < tc
          · rw [if_pos (show ((decide ((v, tc).1 = v) && true &&
              decide (t - W < (v, tc).2)) = true) from by simp [hwc])]
            rw [if_pos (show (decide (t - W < tc) = true)
              from by simp [hwc])] at hih
            omega
          · rw [if_neg (show ¬ ((decide ((v, tc).1 = v) && true &&
              decide (t - W < (v, tc).2)) = true) from by simp [hwc])]
            rw [if_neg (show ¬ (decide (t - W < tc) = true)
              from by simp [hwc])] at hih
            omega
        · have hup : Function.update st v
              ((st v).filter (fun ts => decide (tc - W < ts)) ++ [tc]) u
              = st u := Function.update_noteq (Ne.symm hvu) _ _
          rw [hup] at hih
          rw [if_neg (show ¬ ((decide ((v, tc).1 = u) && true &&
            decide (t - W < (v, tc).2)) = true) from by simp [hvu])]
          omega
    · -- head call denied
      have hr : is_allowed limit W st v tc =
          (Function.update st v
            ((st v).filter (fun ts => decide (tc - W < ts))),
            false,
            ((st v).filter (fun ts => decide (tc - W < ts))).head?.map
              (fun oldest => ⌊oldest - (tc - W)⌋ + 1)) := by
        simp only [is_allowed]
        rw [if_neg hlt]
      rw [hr] at h
      cases rs₁ with
      | nil => simp at h
      | cons c' rs₁' =>
        simp only [List.cons_append, List.cons.injEq] at h
        obtain ⟨hc', htail⟩ := h
        have hih := ih _ hmono.of_cons rs₁' ro rs₂ htail
        simp only [allowCountGT] at hih ⊢
        have hmem : ((u, t) : String × ℚ) ∈ cs := by
          have h1 : (((u, t), true, ro) : (String × ℚ) × Bool × Option ℤ)
              ∈ rs₁' ++ ((u, t), true, ro) :: rs₂ :=
            List.mem_append_right _ (List.mem_cons_self _ _)
          rw [← htail] at h1
          have h2 := List.mem_map_of_mem Prod.fst h1
          rwa [rlRun_map_fst] at h2
        have hct : tc ≤ t := (List.pairwise_cons.mp hmono).1 _ hmem
        rw [← hc', List.countP_cons]
        rw [if_neg (show ¬ ((decide ((v, tc).1 = u) && false &&
          decide (t - W < (v, tc).2)) = true) from by simp)]
        by_cases hvu : v = u
        · subst hvu
          rw [Function.update_same] at hih
          have hkey : (st v).countP (fun x => decide (t - W < x)) =
              ((st v).filter
                (fun ts => decide (tc - W < ts))).countP
                (fun x => decide (t - W < x)) := by
            rw [List.countP_filter]
            refine le_antisymm (List.countP_mono_left ?_)
              (List.countP_mono_left ?_)
            · intro x _ hx
              simp only [decide_eq_true_eq] at hx
              simp only [Bool.and_eq_true, decide_eq_true_eq]
              exact ⟨hx, by linarith⟩
            · intro x _ hx
              simp only [Bool.and_eq_true, decide_eq_true_eq] at hx
              simp only [decide_eq_true_eq]
              exact hx.1
          rw [hkey]
          omega
        · have hup : Function.update st v
              ((st v).filter (fun ts => decide (tc - W < ts))) u
              = st u := Function.update_noteq (Ne.symm hvu) _ _
          rw [hup] at hih
          omega

lemma countP_pos_split {α : Type} (p : α → Bool) :
    ∀ (l : List α), 0 < l.countP p →
    ∃ l₁ e l₂, l = l₁ ++ e :: l₂ ∧ p e = true ∧ l₂.countP p = 0
  | [], h => by simp [List.countP_nil] at h
  | x :: xs, h => by
    by_cases hxs : 0 < xs.countP p
    · obtain ⟨l₁, e, l₂, hdec, hpe, hl₂⟩ := countP_pos_split p xs hxs
      exact ⟨x :: l₁, e, l₂, by rw [hdec, List.cons_append], hpe, hl₂⟩
    · have hx : p x = true := by
        by_contra hpx
        rw [List.countP_cons, if_neg hpx] at h
        omega
      exact ⟨[], x, xs, rfl, hx, by omega⟩

/-- Claim C6: starting from the empty limiter state and running any
chronological trace of `is_allowed` calls (fixed `limit` and
`window_seconds`), user `u` is allowed at most `limit` times within any
window `(s, s + window_seconds]` of `window_seconds` seconds. -/
theorem claim_C6_rate_limit (limit : ℕ) (window_seconds : ℚ)
    (trace : List (String × ℚ))
    (hmono : List.Pairwise (fun a b => a.2 ≤ b.2) trace)
    (u : String) (s : ℚ) :
    allowCount u s (s + window_seconds)
      (rlRun limit window_seconds (fun _ => []) trace) ≤ limit := by
  by_cases h0 : allowCount u s (s + window_seconds)
      (rlRun limit window_seconds (fun _ => []) trace) = 0
  · omega
  · have hpos : 0 < (rlRun limit window_seconds (fun _ => []) trace).countP
        (fun e => decide (e.1.1 = u) && e.2.1 && decide (s < e.1.2) &&
          decide (e.1.2 ≤ s + window_seconds)) :=
      Nat.pos_of_ne_zero h0
    obtain ⟨rs₁, e, rs₂, hdecomp, hpe, hrs₂⟩ := countP_pos_split _ _ hpos
    obtain ⟨⟨v, t⟩, b, ro⟩ := e
    simp only [Bool.and_eq_true, decide_eq_true_eq] at hpe
    obtain ⟨⟨⟨hv, hb⟩, hst⟩, hts⟩ := hpe
    subst hb
    have hv2 : u = v := hv.symm
    subst hv2
    have hkey := rlRun_allowGT_lt limit window_seconds u t trace _
      hmono rs₁ ro rs₂ hdecomp
    simp only [List.countP_nil, Nat.add_zero, allowCountGT] at hkey
    have hmonoc : rs₁.countP
        (fun e => decide (e.1.1 = u) && e.2.1 && decide (s < e.1.2) &&
          decide (e.1.2 ≤ s + window_seconds)) ≤
        rs₁.countP (fun e => decide (e.1.1 = u) && e.2.1 &&
          decide (t - window_seconds < e.1.2)) := by
      refine List.countP_mono_left ?_
      intro x _ hx
      simp only [Bool.and_eq_true, decide_eq_true_eq] at hx
      simp only [Bool.and_eq_true, decide_eq_true_eq]
      obtain ⟨⟨⟨h1, h2⟩, h3⟩, h4⟩ := hx
      exact ⟨⟨h1, h2⟩, by linarith⟩
    have htot : allowCount u s (s + window_seconds)
        (rlRun limit window_seconds (fun _ => []) trace) =
        rs₁.countP
          (fun e => decide (e.1.1 = u) && e.2.1 && decide (s < e.1.2) &&
            decide (e.1.2 ≤ s + window_seconds)) + 1 := by
      simp only [allowCount]
      rw [hdecomp, List.countP_append, List.countP_cons, hrs₂]
      simp [hst, hts]
    omega

/-- Witness for C6 at a concrete two-call trace. -/
theorem claim_C6_rate_limit_witness :
    allowCount "u" 0 (0 + 10)
      (rlRun 1 10 (fun _ => []) [("u", (0 : ℚ)), ("u", 5)]) ≤ 1 :=
  claim_C6_rate_limit 1 10 [("u", (0 : ℚ)), ("u", 5)]
    (by simp) "u" 0


/-! ### C7: text normalization idempotence (`normalization.py`) -/

def isCtrl (c : Char) : Bool :=
  decide (c.toNat ≤ 0x08) || decide (c.toNat = 0x0b) || decide (c.toNat = 0x0c) ||
  (decide (0x0e ≤ c.toNat) && decide (c.toNat ≤ 0x1f))

def crlfToLF : List Char → List Char
  | [] => []
  | [c] => [c]
  | c :: d :: rest =>
    if c = '\r' ∧ d = '\n' then '\n' :: crlfToLF rest
    else c :: crlfToLF (d :: rest)

def mapCR (l : List Char) : List Char :=
  l.map (fun c => if c = '\r' then '\n' else c)

def collapseAux : Bool → List Char → List Char
  | _, [] => []
  | inRun, c :: cs =>
    if c = ' ' ∨ c = '\t' then
      if inRun then collapseAux true cs else ' ' :: collapseAux true cs
    else c :: collapseAux false cs

def collapseST (l : List Char) : List Char := collapseAux false l

def splitOnChar (sep : Char) : List Char → List (List Char)
  | [] => [[]]
  | c :: cs =>
    if c = sep then [] :: splitOnChar sep cs
    else
      match splitOnChar sep cs with
      | [] => [[c]]
      | l :: ls => (c :: l) :: ls

def joinNL : List (List Char) → List Char
  | [] => []
  | [l] => l
  | l :: ls => l ++ '\n' :: joinNL ls

def normalize (text : List Char) : List Char :=
  if text = [] then []
  else
    joinNL (((splitOnChar '\n'
        (mapCR (crlfToLF (text.filter (fun c => !isCtrl c))))).map
      (fun line => pyStrip (collapseST line))).filter
        (fun line => !line.isEmpty))

lemma mem_crlfToLF (c : Char) :
    ∀ (l : List Char), c ∈ crlfToLF l → c ∈ l ∨ c = '\n'
  | [], h => by simp [crlfToLF] at h
  | [a], h => by
    simp [crlfToLF] at h
    exact Or.inl (by simp [h])
  | a :: d :: rest, h => by
    simp only [crlfToLF] at h
    split_ifs at h with hcd
    · rcases List.mem_cons.mp h with rfl | h'
      · exact Or.inr rfl
      · rcases mem_crlfToLF c rest h' with h'' | rfl
        · exact Or.inl (List.mem_cons_of_mem _ (List.mem_cons_of_mem _ h''))
        · exact Or.inr rfl
    · rcases List.mem_cons.mp h with rfl | h'
      · exact Or.inl (List.mem_cons_self _ _)
      · rcases mem_crlfToLF c (d :: rest) h' with h'' | rfl
        · exact Or.inl (List.mem_cons_of_mem _ h'')
        · exact Or.inr rfl

lemma crlfToLF_eq_self : ∀ (l : List Char), '\r' ∉ l → crlfToLF l = l
  | [], _ => rfl
  | [_], _ => rfl
  | a :: d :: rest, h => by
    simp only [crlfToLF]
    rw [if_neg (by rintro ⟨rfl, -⟩; exact h (List.mem_cons_self _ _))]
    exact congrArg (a :: ·)
      (crlfToLF_eq_self (d :: rest) (fun hm => h (List.mem_cons_of_mem _ hm)))

lemma mapCR_eq_self (l : List Char) (h : ∀ c ∈ l, c ≠ '\r') : mapCR l = l := by
  unfold mapCR
  have : l.map (fun c => if c = '\r' then '\n' else c) = l.map id :=
    List.map_congr_left (fun a ha => by simp [h a ha])
  rw [this, List.map_id]

lemma mem_mapCR (c : Char) (l : List Char) (h : c ∈ mapCR l) :
    c = '\n' ∨ (c ∈ l ∧ c ≠ '\r') := by
  unfold mapCR at h
  obtain ⟨d, hd, hcd⟩ := List.mem_map.mp h
  by_cases hdr : d = '\r'
  · subst hdr; simp at hcd; exact Or.inl hcd.symm
  · rw [if_neg hdr] at hcd
    subst hcd
    exact Or.inr ⟨hd, hdr⟩

lemma mem_collapseAux (c : Char) :
    ∀ (l : List Char) (b : Bool), c ∈ collapseAux b l → c ∈ l ∨ c = ' '
  | [], b, h => by simp [collapseAux] at h
  | a :: cs, b, h => by
    simp only [collapseAux] at h
    split_ifs at h with hst hb
    · rcases mem_collapseAux c cs true h with h' | rfl
      · exact Or.inl (List.mem_cons_of_mem _ h')
      · exact Or.inr rfl
    · rcases List.mem_cons.mp h with rfl | h'
      · exact Or.inr rfl
      · rcases mem_collapseAux c cs true h' with h'' | rfl
        · exact Or.inl (List.mem_cons_of_mem _ h'')
        · exact Or.inr rfl
    · rcases List.mem_cons.mp h with rfl | h'
      · exact Or.inl (List.mem_cons_self _ _)
      · rcases mem_collapseAux c cs false h' with h'' | rfl
        · exact Or.inl (List.mem_cons_of_mem _ h'')
        · exact Or.inr rfl

lemma collapseAux_spec :
    ∀ (l : List Char) (b : Bool),
    '\t' ∉ collapseAux b l ∧
    (collapseAux b l).Chain' (fun a c => ¬(a = ' ' ∧ c = ' ')) ∧
    (b = true → ∀ h ∈ (collapseAux b l).head?, h ≠ ' ')
  | [], b => by simp [collapseAux]
  | a :: cs, b => by
    obtain ⟨iht, ihc, ihh⟩ := collapseAux_spec cs true
    obtain ⟨iht', ihc', _⟩ := collapseAux_spec cs false
    simp only [collapseAux]
    split_ifs with hst hb
    · exact ⟨iht, ihc, fun _ => ihh rfl⟩
    · refine ⟨?_, ?_, ?_⟩
      · intro hmem
        rcases List.mem_cons.mp hmem with heq | hmem'
        · exact absurd heq.symm (by decide)
        · exact iht hmem'
      · rw [List.chain'_cons']
        exact ⟨fun h hh => fun ⟨_, hsp⟩ => ihh rfl h hh hsp, ihc⟩
      · intro hb'; exact absurd hb' hb
    · refine ⟨?_, ?_, ?_⟩
      · intro hmem
        rcases List.mem_cons.mp hmem with heq | hmem'
        · exact hst (Or.inr heq.symm)
        · exact iht' hmem'
      · rw [List.chain'_cons']
        refine ⟨fun h _ => fun ⟨ha, _⟩ => hst (Or.inl ha), ihc'⟩
      · intro _ h hh
        simp only [List.head?_cons, Option.mem_def, Option.some.injEq] at hh
        subst hh
        exact fun ha => hst (Or.inl ha)

lemma collapseAux_eq_self :
    ∀ (l : List Char), '\t' ∉ l →
    l.Chain' (fun a c => ¬(a = ' ' ∧ c = ' ')) →
    collapseAux false l = l ∧
    ((∀ h ∈ l.head?, ¬(h = ' ' ∨ h = '\t')) → collapseAux true l = l)
  | [], _, _ => ⟨rfl, fun _ => rfl⟩
  | a :: cs, htab, hch => by
    have htab' : '\t' ∉ cs := fun hm => htab (List.mem_cons_of_mem _ hm)
    have hch' := (List.chain'_cons'.mp hch).2
    have hhd := (List.chain'_cons'.mp hch).1
    obtain ⟨ih1, ih2⟩ := collapseAux_eq_self cs htab' hch'
    by_cases hst : a = ' ' ∨ a = '\t'
    · have ha : a = ' ' := by
        rcases hst with h | h
        · exact h
        · exact absurd (h ▸ List.mem_cons_self a cs) htab
      subst ha
      constructor
      · have hstep : collapseAux false (' ' :: cs) = ' ' :: collapseAux true cs := by
          simp [collapseAux]
        rw [hstep]
        congr 1
        refine ih2 ?_
        intro h hh
        refine fun hor => ?_
        rcases hor with hsp | htb
        · exact (hhd h hh) ⟨rfl, hsp⟩
        · refine htab (List.mem_cons_of_mem _ ?_)
          rw [← htb]
          exact List.mem_of_mem_head? hh
      · intro hcond
        exact absurd (Or.inl rfl) (hcond ' ' (by simp))
    · constructor
      · simp only [collapseAux, if_neg hst]
        rw [ih1]
      · intro _
        simp only [collapseAux, if_neg hst]
        rw [ih1]

lemma mem_pyStrip (c : Char) (l : List Char) (h : c ∈ pyStrip l) : c ∈ l := by
  unfold pyStrip at h
  rw [List.mem_reverse] at h
  have h1 := List.Sublist.mem h (List.dropWhile_sublist pyIsSpace)
  rw [List.mem_reverse] at h1
  exact List.Sublist.mem h1 (List.dropWhile_sublist pyIsSpace)

lemma chain'_dropWhile {R : Char → Char → Prop} (p : Char → Bool) :
    ∀ (l : List Char), l.Chain' R → (l.dropWhile p).Chain' R
  | [], _ => by simp
  | a :: cs, h => by
    rw [List.dropWhile_cons]
    split_ifs with hp
    · exact chain'_dropWhile p cs h.tail
    · exact h

lemma chain'_symm_reverse {R : Char → Char → Prop}
    (hR : ∀ a b, R a b → R b a) (l : List Char) (h : l.Chain' R) :
    l.reverse.Chain' R :=
  (List.chain'_reverse).mpr (h.imp (fun a b hab => hR a b hab))

lemma chain'_pyStrip {R : Char → Char → Prop}
    (hR : ∀ a b, R a b → R b a) (l : List Char) (h : l.Chain' R) :
    (pyStrip l).Chain' R := by
  unfold pyStrip
  exact chain'_symm_reverse hR _
    (chain'_dropWhile _ _ (chain'_symm_reverse hR _ (chain'_dropWhile _ _ h)))

lemma head?_dropWhile_false (p : Char → Bool) :
    ∀ (l : List Char) (x : Char), (l.dropWhile p).head? = some x → p x = false
  | [], x, h => by simp at h
  | a :: cs, x, h => by
    rw [List.dropWhile_cons] at h
    split_ifs at h with hp
    · exact head?_dropWhile_false p cs x h
    · simp only [List.head?_cons, Option.some.injEq] at h
      subst h
      exact Bool.not_eq_true _ ▸ (by simpa using hp)

lemma dropWhile_eq_self_of_head (p : Char → Bool) (l : List Char)
    (h : ∀ x, l.head? = some x → p x = false) : l.dropWhile p = l := by
  cases l with
  | nil => rfl
  | cons a cs =>
    rw [List.dropWhile_cons, if_neg]
    simp [h a rfl]

lemma getLast?_dropWhile (p : Char → Bool) (l : List Char)
    (h : l.dropWhile p ≠ []) : (l.dropWhile p).getLast? = l.getLast? := by
  conv_rhs => rw [← List.takeWhile_append_dropWhile p l]
  rw [List.getLast?_append_of_ne_nil _ h]

lemma pyStrip_idem (l : List Char) : pyStrip (pyStrip l) = pyStrip l := by
  by_cases hz : pyStrip l = []
  · rw [hz]; rfl
  · have hw : (l.dropWhile pyIsSpace).reverse.dropWhile pyIsSpace ≠ [] := by
      intro hcon
      apply hz
      unfold pyStrip
      rw [hcon]
      rfl
    -- head of pyStrip l is the last of the right-stripped reverse,
    -- i.e. the head of the left-stripped list, which fails pyIsSpace
    have hhead : ∀ x, (pyStrip l).head? = some x → pyIsSpace x = false := by
      intro x hx
      unfold pyStrip at hx
      rw [List.head?_reverse] at hx
      rw [getLast?_dropWhile _ _ hw] at hx
      rw [List.getLast?_reverse] at hx
      exact head?_dropWhile_false _ _ _ hx
    have h1 : (pyStrip l).dropWhile pyIsSpace = pyStrip l :=
      dropWhile_eq_self_of_head _ _ hhead
    have h2 : (pyStrip l).reverse =
        (l.dropWhile pyIsSpace).reverse.dropWhile pyIsSpace := by
      unfold pyStrip
      rw [List.reverse_reverse]
    calc pyStrip (pyStrip l)
        = (((pyStrip l).dropWhile pyIsSpace).reverse.dropWhile
            pyIsSpace).reverse := rfl
      _ = ((pyStrip l).reverse.dropWhile pyIsSpace).reverse := by rw [h1]
      _ = (((l.dropWhile pyIsSpace).reverse.dropWhile
            pyIsSpace).dropWhile pyIsSpace).reverse := by rw [h2]
      _ = ((l.dropWhile pyIsSpace).reverse.dropWhile pyIsSpace).reverse := by
            rw [dropWhile_eq_self_of_head _ _
              (fun x hx => head?_dropWhile_false _ _ _ hx)]
      _ = pyStrip l := rfl


lemma splitOnChar_ne_nil (sep : Char) : ∀ (l : List Char), splitOnChar sep l ≠ []
  | [] => by simp [splitOnChar]
  | c :: cs => by
    simp only [splitOnChar]
    split_ifs
    · simp
    · cases hsp : splitOnChar sep cs <;> simp

lemma mem_splitOnChar (sep : Char) :
    ∀ (l : List Char) (seg : List Char), seg ∈ splitOnChar sep l →
      ∀ c ∈ seg, c ∈ l ∧ c ≠ sep
  | [], seg, hseg => by
    simp only [splitOnChar, List.mem_singleton] at hseg
    subst hseg
    simp
  | a :: cs, seg, hseg => by
    simp only [splitOnChar] at hseg
    by_cases has : a = sep
    · rw [if_pos has] at hseg
      rcases List.mem_cons.mp hseg with rfl | hseg'
      · simp
      · intro c hc
        obtain ⟨h1, h2⟩ := mem_splitOnChar sep cs seg hseg' c hc
        exact ⟨List.mem_cons_of_mem _ h1, h2⟩
    · rw [if_neg has] at hseg
      cases hsp : splitOnChar sep cs with
      | nil => exact absurd hsp (splitOnChar_ne_nil sep cs)
      | cons l₁ ls =>
        rw [hsp] at hseg
        rcases List.mem_cons.mp hseg with rfl | hseg'
        · intro c hc
          rcases List.mem_cons.mp hc with rfl | hc'
          · exact ⟨List.mem_cons_self _ _, has⟩
          · obtain ⟨h1, h2⟩ := mem_splitOnChar sep cs l₁
              (by rw [hsp]; exact List.mem_cons_self _ _) c hc'
            exact ⟨List.mem_cons_of_mem _ h1, h2⟩
        · intro c hc
          obtain ⟨h1, h2⟩ := mem_splitOnChar sep cs seg
            (by rw [hsp]; exact List.mem_cons_of_mem _ hseg') c hc
          exact ⟨List.mem_cons_of_mem _ h1, h2⟩

lemma splitOnChar_of_ne (sep : Char) :
    ∀ (l : List Char), sep ∉ l → splitOnChar sep l = [l]
  | [], _ => rfl
  | c :: cs, h => by
    simp only [splitOnChar]
    rw [if_neg (fun hc : c = sep => h (hc ▸ List.mem_cons_self c cs))]
    rw [splitOnChar_of_ne sep cs (fun hm => h (List.mem_cons_of_mem _ hm))]

lemma splitOnChar_append_sep (sep : Char) :
    ∀ (l rest : List Char), sep ∉ l →
    splitOnChar sep (l ++ sep :: rest) = l :: splitOnChar sep rest
  | [], rest, _ => by simp [splitOnChar]
  | c :: l', rest, h => by
    simp only [List.cons_append, splitOnChar, List.append_eq]
    rw [if_neg (fun hc : c = sep => h (hc ▸ List.mem_cons_self c l'))]
    rw [splitOnChar_append_sep sep l' rest (fun hm => h (List.mem_cons_of_mem _ hm))]

lemma joinNL_cons_cons (l l' : List Char) (ls : List (List Char)) :
    joinNL (l :: l' :: ls) = l ++ '\n' :: joinNL (l' :: ls) := rfl

lemma mem_joinNL (c : Char) :
    ∀ (lines : List (List Char)), c ∈ joinNL lines →
      c = '\n' ∨ ∃ l ∈ lines, c ∈ l
  | [], h => by simp [joinNL] at h
  | [l], h => by
    rw [show joinNL [l] = l from rfl] at h
    exact Or.inr ⟨l, by simp, h⟩
  | l :: l' :: ls, h => by
    rw [joinNL_cons_cons] at h
    rcases List.mem_append.mp h with h1 | h2
    · exact Or.inr ⟨l, by simp, h1⟩
    · rcases List.mem_cons.mp h2 with rfl | h3
      · exact Or.inl rfl
      · rcases mem_joinNL c (l' :: ls) h3 with h4 | ⟨m, hm, hcm⟩
        · exact Or.inl h4
        · exact Or.inr ⟨m, List.mem_cons_of_mem _ hm, hcm⟩

lemma joinNL_ne_nil (l : List Char) (ls : List (List Char)) (h : l ≠ []) :
    joinNL (l :: ls) ≠ [] := by
  cases ls with
  | nil => exact h
  | cons l' ls' =>
    rw [joinNL_cons_cons]
    simp

lemma splitOnChar_joinNL :
    ∀ (lines : List (List Char)), lines ≠ [] →
    (∀ l ∈ lines, '\n' ∉ l) →
    splitOnChar '\n' (joinNL lines) = lines
  | [], h, _ => absurd rfl h
  | [l], _, hns => by
    rw [show joinNL [l] = l from rfl]
    exact splitOnChar_of_ne '\n' l (hns l (by simp))
  | l :: l' :: ls, _, hns => by
    rw [joinNL_cons_cons]
    rw [splitOnChar_append_sep '\n' l (joinNL (l' :: ls)) (hns l (by simp))]
    rw [splitOnChar_joinNL (l' :: ls) (by simp)
      (fun m hm => hns m (List.mem_cons_of_mem _ hm))]

lemma normalize_joinNL_fixed (L : List (List Char))
    (hne : ∀ l ∈ L, l ≠ [])
    (hchars : ∀ l ∈ L, ∀ c ∈ l, isCtrl c = false ∧ c ≠ '\r' ∧ c ≠ '\n')
    (hfix : ∀ l ∈ L, collapseST l = l ∧ pyStrip l = l) :
    normalize (joinNL L) = joinNL L := by
  cases L with
  | nil => rfl
  | cons l0 ls =>
    have hy_ne : joinNL (l0 :: ls) ≠ [] := joinNL_ne_nil l0 ls (hne l0 (by simp))
    simp only [normalize, if_neg hy_ne]
    have hf : (joinNL (l0 :: ls)).filter (fun c => !isCtrl c) = joinNL (l0 :: ls) := by
      refine List.filter_eq_self.mpr ?_
      intro a ha
      rcases mem_joinNL a _ ha with rfl | ⟨l, hl, hal⟩
      · decide
      · simp [(hchars l hl a hal).1]
    rw [hf]
    have hcr : ∀ c ∈ joinNL (l0 :: ls), c ≠ '\r' := by
      intro c hc
      rcases mem_joinNL c _ hc with rfl | ⟨l, hl, hcl⟩
      · decide
      · exact (hchars l hl c hcl).2.1
    rw [crlfToLF_eq_self _ (fun hm => hcr '\r' hm rfl)]
    rw [mapCR_eq_self _ hcr]
    rw [splitOnChar_joinNL (l0 :: ls) (by simp)
      (fun l hl hnl => (hchars l hl '\n' hnl).2.2 rfl)]
    have hmap : (l0 :: ls).map (fun line => pyStrip (collapseST line)) = l0 :: ls := by
      have hid : ∀ l ∈ l0 :: ls, pyStrip (collapseST l) = l := by
        intro l hl
        rw [(hfix l hl).1, (hfix l hl).2]
      calc (l0 :: ls).map (fun line => pyStrip (collapseST line))
          = (l0 :: ls).map id := List.map_congr_left (fun a ha => hid a ha)
        _ = l0 :: ls := List.map_id _
    rw [hmap]
    rw [List.filter_eq_self.mpr (fun a ha => by simpa using hne a ha)]

/-- Claim C7: `TextNormalizer.normalize` is idempotent. -/
theorem claim_C7_normalize_idempotent (text : List Char) :
    normalize (normalize text) = normalize text := by
  by_cases h0 : text = []
  · subst h0; rfl
  · have hy : normalize text = joinNL
        (((splitOnChar '\n'
          (mapCR (crlfToLF (text.filter (fun c => !isCtrl c))))).map
          (fun line => pyStrip (collapseST line))).filter
          (fun line => !line.isEmpty)) := by
      simp only [normalize, if_neg h0]
    rw [hy]
    apply normalize_joinNL_fixed
    · intro l hl
      have := (List.mem_filter.mp hl).2
      simpa using this
    · intro l hl c hc
      obtain ⟨hmap, _⟩ := List.mem_filter.mp hl
      obtain ⟨seg, hseg, rfl⟩ := List.mem_map.mp hmap
      have hc1 : c ∈ collapseST seg := mem_pyStrip c _ hc
      rcases mem_collapseAux c seg false hc1 with hc2 | rfl
      · obtain ⟨hct2, hcsep⟩ := mem_splitOnChar '\n' _ seg hseg c hc2
        rcases mem_mapCR c _ hct2 with rfl | ⟨hc3, hcr⟩
        · exact absurd rfl hcsep
        · rcases mem_crlfToLF c _ hc3 with hc4 | rfl
          · have := (List.mem_filter.mp hc4).2
            exact ⟨by simpa using this, hcr, hcsep⟩
          · exact ⟨by decide, hcr, hcsep⟩
      · exact ⟨by decide, by decide, by decide⟩
    · intro l hl
      obtain ⟨hmap, _⟩ := List.mem_filter.mp hl
      obtain ⟨seg, hseg, rfl⟩ := List.mem_map.mp hmap
      obtain ⟨htab, hchain, _⟩ := collapseAux_spec seg false
      have htab' : '\t' ∉ pyStrip (collapseST seg) :=
        fun hm => htab (mem_pyStrip _ _ hm)
      have hchain' := chain'_pyStrip
        (fun a b hab => fun hc => hab ⟨hc.2, hc.1⟩) _ hchain
      exact ⟨(collapseAux_eq_self _ htab' hchain').1, pyStrip_idem _⟩


/-! ### C1: prompt assembly and citation map (`prompt_services.py`) -/

/-- Metadata keys of a retrieved chunk that `CitationFormatter` consults;
values embed the `str()` renderings of the (untyped) Python dict values. -/
structure ChunkMetaP where
  source_file : Option (List Char)
  filename : Option (List Char)
  page : Option (List Char)
  sect : Option (List Char)
  deriving DecidableEq

/-- The fields of `query_models.RetrievedChunk` used by `prompt_services`;
`chunk_id`/`document_id` embed the `str()` renderings of the UUIDs. -/
structure PChunk where
  chunk_id : List Char
  document_id : Option (List Char)
  content : List Char
  similarity_score : ℚ
  rank : ℤ
  metadata : ChunkMetaP
  deriving DecidableEq

/-- `TokenCounter.count`: 0 for the empty string, else at least one and
the number of whitespace-separated words. -/
def tokenCount (text : List Char) : ℕ :=
  if text = [] then 0 else max 1 (pyWords text).length

/-- Decimal digits of a natural number (fuel-based so the kernel can
reduce it). -/
def natDigitsF : ℕ → ℕ → List Char
  | 0, _ => []
  | fuel + 1, n =>
    if n < 10 then [Char.ofNat (48 + n)]
    else natDigitsF fuel (n / 10) ++ [Char.ofNat (48 + n % 10)]

def natDigits (n : ℕ) : List Char := natDigitsF (n + 1) n

/-- Join a list of strings with a separator (`sep.join(parts)`). -/
def joinSep (sep : List Char) : List (List Char) → List Char
  | [] => []
  | [x] => x
  | x :: xs => x ++ sep ++ joinSep sep xs

/-- `metadata.get("source_file") or metadata.get("filename") or "unknown"`:
Python `or` falls through on `None` and on the empty string. -/
def sourceFileOf (m : ChunkMetaP) : List Char :=
  match m.source_file with
  | some s => if s ≠ [] then s else
      match m.filename with
      | some f => if f ≠ [] then f else "unknown".data
      | none => "unknown".data
  | none =>
      match m.filename with
      | some f => if f ≠ [] then f else "unknown".data
      | none => "unknown".data

/-- `CitationFormatter.format_chunk`: the `[Source N]` marker heads the
header parts, followed by the optional file, page and section parts. -/
def formatChunk (c : PChunk) (citation_index : ℕ) : List Char :=
  joinSep ", ".data
    (("[Source ".data ++ natDigits citation_index ++ "]".data) ::
      ((if sourceFileOf c.metadata ≠ [] then
          ["File: ".data ++ sourceFileOf c.metadata] else [])
        ++ (match c.metadata.page with
            | some p => ["Page ".data ++ p]
            | none => [])
        ++ (match c.metadata.sect with
            | some s => if s ≠ [] then [s] else []
            | none => [])))
  ++ "\n".data ++ c.content ++ "\n".data

/-- `meta` dict built by `CitationFormatter.build_citation_map` for one
chunk (its fixed keys, then the chunk metadata merged in). -/
structure CitationMapEntry where
  chunk_id : List Char
  document_id : Option (List Char)
  similarity_score : ℚ
  metadata : ChunkMetaP
  deriving DecidableEq

def entryOf (c : PChunk) : CitationMapEntry :=
  ⟨c.chunk_id, c.document_id, c.similarity_score, c.metadata⟩

/-- `CitationFormatter.build_citation_map`: zips `used_indices` with the
chunk list it is given (the ORIGINAL `request.retrieved_chunks`). -/
def buildCitationMap (chunks : List PChunk) (used_indices : List ℕ) :
    List (ℕ × CitationMapEntry) :=
  (used_indices.zip chunks).map (fun p => (p.1, entryOf p.2))

/-- Sort key comparison of `ContextAssembler.assemble`:
`(rank, -similarity_score)` ascending, `keyLE y x` = key of `y` ≤ key of `x`. -/
def keyLE (y x : PChunk) : Bool :=
  decide (y.rank < x.rank) ||
    (decide (y.rank = x.rank) && decide (x.similarity_score ≤ y.similarity_score))

def insertRank (x : PChunk) : List PChunk → List PChunk
  | [] => [x]
  | y :: ys => if keyLE y x then y :: insertRank x ys else x :: y :: ys

/-- Python's stable `sorted(chunks, key=lambda c: (c.rank, -c.similarity_score))`
as a stable insertion sort. -/
def sortByRank : List PChunk → List PChunk
  | [] => []
  | x :: xs => insertRank x (sortByRank xs)

/-- The chunk loop of `ContextAssembler.assemble`, started at
`citation_index = 1`; returns (parts, used_indices, chunks_included,
chunks_truncated). -/
def assembleLoop : ℕ → ℤ → List PChunk →
    List (List Char) × List ℕ × ℕ × ℕ
  | _, _, [] => ([], [], 0, 0)
  | idx, remaining, c :: cs =>
    let formatted := formatChunk c idx
    let tokens : ℤ := tokenCount formatted
    if tokens ≤ remaining then
      let r := assembleLoop (idx + 1) (remaining - tokens) cs
      (formatted :: r.1, idx :: r.2.1, r.2.2.1 + 1, r.2.2.2)
    else if 0 < remaining then
      let words := pyWords formatted
      if words = [] then ([], [], 0, 0)
      else
        let maxT : ℤ := max 0 (remaining - 1)
        let tw := if words.take maxT.toNat = [] then words.take 1
                  else words.take maxT.toNat
        let ttext := joinSep [' '] tw ++ " [...]\n".data
        let ttok : ℤ := tokenCount ttext
        if ttok ≤ remaining then ([ttext], [idx], 1, 1) else ([], [], 0, 0)
    else ([], [], 0, 0)

/-- `ContextAssembler.assemble`: (context_str, used_indices,
chunks_included, chunks_truncated). -/
def assemble (chunks : List PChunk) (available_tokens : ℤ) :
    List Char × List ℕ × ℕ × ℕ :=
  if available_tokens ≤ 0 ∨ chunks = [] then ([], [], 0, 0)
  else
    let r := assembleLoop 1 available_tokens (sortByRank chunks)
    (r.1.flatten, r.2.1, r.2.2.1, r.2.2.2)

/-- The system prompt of `PromptAssembler._build_system_prompt`. -/
def systemPrompt : List Char :=
  ("You are a helpful, accurate, and concise assistant.\n\n"
    ++ "When answering:\n"
    ++ "1. Use ONLY the provided context to form your answer.\n"
    ++ "2. Cite your sources using [Source N] markers.\n"
    ++ "3. If the context does not contain the answer, say so explicitly.\n"
    ++ "4. Be precise and avoid generalizations.").data

/-- `PromptConstructionRequest` fields used by `construct_prompt`
(`model` is always resolved to a 128000-token context window). -/
structure PromptRequest where
  query_text : List Char
  retrieved_chunks : List PChunk
  max_tokens_for_response : ℤ
  deriving DecidableEq

/-- The successful payload of `construct_prompt` built from the
`assemble` result `r`: (user_message, citation_map, chunks_included,
chunks_truncated). -/
def promptPayload (req : PromptRequest)
    (r : List Char × List ℕ × ℕ × ℕ) :
    List Char × List (ℕ × CitationMapEntry) × ℕ × ℕ :=
  let citation_map := buildCitationMap req.retrieved_chunks r.2.1
  let context_section :=
    if r.1 ≠ [] then
      "---RETRIEVED CONTEXT---\n".data ++ r.1 ++ "\n".data
    else
      ("---RETRIEVED CONTEXT---\n"
        ++ "No relevant context was retrieved. "
        ++ "Answer based on general knowledge only if appropriate.\n").data
  let user_message := context_section ++ "\n".data
    ++ "---USER QUERY---\n".data ++ req.query_text
  (user_message, citation_map, r.2.2.1, r.2.2.2)

/-- `PromptAssembler.construct_prompt`: returns
(user_message, citation_map, chunks_included, chunks_truncated), or the
`ValueError` message when the fixed budget exceeds the context window. -/
def constructPrompt (req : PromptRequest) :
    Except (List Char)
      (List Char × List (ℕ × CitationMapEntry) × ℕ × ℕ) :=
  let system_tokens : ℤ := tokenCount systemPrompt
  let query_tokens : ℤ := tokenCount req.query_text
  let total_fixed := system_tokens + query_tokens + 0 + 0 +
    req.max_tokens_for_response
  if 128000 < total_fixed then
    .error "Token budget exceeds model context window".data
  else
    .ok (promptPayload req
      (assemble req.retrieved_chunks (128000 - total_fixed)))

lemma joinSep_cons_ex (sep m : List Char) (rest : List (List Char)) :
    ∃ t, joinSep sep (m :: rest) = m ++ t := by
  cases rest with
  | nil => exact ⟨[], (List.append_nil m).symm⟩
  | cons y ys =>
    exact ⟨sep ++ joinSep sep (y :: ys), by
      rw [show joinSep sep (m :: y :: ys) = m ++ sep ++ joinSep sep (y :: ys)
        from rfl, List.append_assoc]⟩

lemma formatChunk_marker (c : PChunk) (k : ℕ) :
    ∃ s, formatChunk c k =
      ("[Source ".data ++ natDigits k ++ "]".data) ++ s := by
  unfold formatChunk
  obtain ⟨t, ht⟩ := joinSep_cons_ex ", ".data
    ("[Source ".data ++ natDigits k ++ "]".data) _
  rw [ht]
  exact ⟨t ++ ("\n".data ++ (c.content ++ "\n".data)),
    by simp [List.append_assoc]⟩

lemma insertRank_length (x : PChunk) :
    ∀ (l : List PChunk), (insertRank x l).length = l.length + 1
  | [] => rfl
  | y :: ys => by
    simp only [insertRank]
    split_ifs
    · simp [List.length_cons, insertRank_length x ys]
    · simp

lemma sortByRank_length :
    ∀ (l : List PChunk), (sortByRank l).length = l.length
  | [] => rfl
  | x :: xs => by
    simp only [sortByRank]
    rw [insertRank_length, sortByRank_length xs]
    rfl

lemma assembleLoop_spec :
    ∀ (cs : List PChunk) (idx : ℕ) (rem : ℤ),
    (assembleLoop idx rem cs).2.1 =
      List.range' idx (assembleLoop idx rem cs).2.1.length ∧
    (assembleLoop idx rem cs).2.1.length ≤ cs.length ∧
    ((assembleLoop idx rem cs).2.2.2 = 0 →
      ∀ k ∈ (assembleLoop idx rem cs).2.1,
        ∃ c, formatChunk c k ∈ (assembleLoop idx rem cs).1)
  | [], idx, rem => by simp [assembleLoop]
  | c :: cs, idx, rem => by
    obtain ⟨ih1, ih2, ih3⟩ := assembleLoop_spec cs (idx + 1)
      (rem - (tokenCount (formatChunk c idx) : ℤ))
    simp only [assembleLoop]
    split_ifs with h1 h2 h3 h4 h5
    · -- chunk fits: include and continue
      refine ⟨?_, ?_, ?_⟩
      · simp only [List.length_cons]
        rw [List.range'_succ]
        exact congrArg (idx :: ·) ih1
      · simp only [List.length_cons]
        omega
      · intro htr k hk
        simp only at htr hk
        rcases List.mem_cons.mp hk with rfl | hk'
        · exact ⟨c, List.mem_cons_self _ _⟩
        · obtain ⟨c', hc'⟩ := ih3 htr k hk'
          exact ⟨c', List.mem_cons_of_mem _ hc'⟩
    all_goals
      refine ⟨by simp [List.range'], ?_, ?_⟩
      · simp only [List.length_cons, List.length_nil]
        omega
      · intro htr k hk
        simp at htr hk

lemma buildCitationMap_entries :
    ∀ (n : ℕ) (chunks : List PChunk) (s : ℕ), n ≤ chunks.length →
    ∀ k e, (k, e) ∈ buildCitationMap chunks (List.range' s n) →
      s ≤ k ∧ k < s + n ∧ ∃ c, chunks.get? (k - s) = some c ∧ e = entryOf c
  | 0, chunks, s, _, k, e, h => by simp [buildCitationMap] at h
  | n + 1, [], s, hlen, k, e, h => by simp at hlen
  | n + 1, c :: cs, s, hlen, k, e, h => by
    rw [List.range'_succ, buildCitationMap, List.zip_cons_cons,
      List.map_cons] at h
    rcases List.mem_cons.mp h with heq | htail
    · rw [Prod.mk.injEq] at heq
      obtain ⟨rfl, rfl⟩ := heq
      exact ⟨le_refl _, by omega, c, by simp, rfl⟩
    · obtain ⟨hk1, hk2, c', hc', he⟩ :=
        buildCitationMap_entries n cs (s + 1) (by simpa using hlen) k e htail
      refine ⟨by omega, by omega, c', ?_, he⟩
      rw [show k - s = (k - (s + 1)) + 1 from by omega]
      simpa using hc'

lemma buildCitationMap_keys (chunks : List PChunk) (used : List ℕ)
    (h : used.length ≤ chunks.length) :
    (buildCitationMap chunks used).map Prod.fst = used := by
  unfold buildCitationMap
  rw [List.map_map]
  exact List.map_fst_zip used chunks h

lemma buildCitationMap_length (chunks : List PChunk) (used : List ℕ)
    (h : used.length ≤ chunks.length) :
    (buildCitationMap chunks used).length = used.length := by
  unfold buildCitationMap
  rw [List.length_map, List.length_zip]
  omega

lemma hasSub_of_decomp (p s l r : List Char) (h : s = l ++ p ++ r) :
    hasSub p s = true := (hasSub_iff p s).mpr ⟨l, r, h⟩


lemma assemble_spec (chunks : List PChunk) (avail : ℤ) :
    (assemble chunks avail).2.1 =
      List.range' 1 (assemble chunks avail).2.1.length ∧
    (assemble chunks avail).2.1.length ≤ chunks.length ∧
    ((assemble chunks avail).2.2.2 = 0 →
      ∀ k ∈ (assemble chunks avail).2.1, ∃ l r,
        (assemble chunks avail).1 =
          l ++ ("[Source ".data ++ natDigits k ++ "]".data) ++ r) := by
  simp only [assemble]
  split_ifs with hguard
  · simp [List.range']
  · obtain ⟨h1, h2, h3⟩ := assembleLoop_spec (sortByRank chunks) 1 avail
    refine ⟨h1, ?_, ?_⟩
    · rw [sortByRank_length] at h2
      exact h2
    · intro htr k hk
      simp only at htr hk
      obtain ⟨c, hc⟩ := h3 htr k hk
      obtain ⟨s, hs⟩ := formatChunk_marker c k
      obtain ⟨s₁, t₁, hdec⟩ := List.append_of_mem hc
      refine ⟨s₁.flatten, s ++ t₁.flatten, ?_⟩
      rw [hdec, List.flatten_append, List.flatten_cons, hs]
      simp [List.append_assoc]

lemma payload_props (req : PromptRequest)
    (A : List Char × List ℕ × ℕ × ℕ)
    (hused : A.2.1 = List.range' 1 A.2.1.length)
    (hlen : A.2.1.length ≤ req.retrieved_chunks.length)
    (hmark : A.2.2.2 = 0 → ∀ k ∈ A.2.1, ∃ l r,
      A.1 = l ++ ("[Source ".data ++ natDigits k ++ "]".data) ++ r) :
    ((promptPayload req A).2.1.map Prod.fst =
      List.range' 1 (promptPayload req A).2.1.length) ∧
    (∀ k e, (k, e) ∈ (promptPayload req A).2.1 →
      ∃ c, req.retrieved_chunks.get? (k - 1) = some c ∧ e = entryOf c) ∧
    ((promptPayload req A).2.2.2 = 0 →
      ∀ k ∈ (promptPayload req A).2.1.map Prod.fst,
        hasSub ("[Source ".data ++ natDigits k ++ "]".data)
          (promptPayload req A).1 = true) := by
  have hkeys : (promptPayload req A).2.1.map Prod.fst = A.2.1 := by
    simp only [promptPayload]
    exact buildCitationMap_keys _ _ hlen
  have hlen' : (promptPayload req A).2.1.length = A.2.1.length := by
    simp only [promptPayload]
    exact buildCitationMap_length _ _ hlen
  refine ⟨?_, ?_, ?_⟩
  · rw [hkeys, hlen']
    exact hused
  · intro k e hke
    simp only [promptPayload] at hke
    rw [hused] at hke
    obtain ⟨hk1, hk2, c, hc, he⟩ := buildCitationMap_entries _ _ _ hlen k e hke
    exact ⟨c, hc, he⟩
  · intro htr k hk
    rw [hkeys] at hk
    have htr' : A.2.2.2 = 0 := htr
    obtain ⟨l, r, hdec⟩ := hmark htr' k hk
    have hne : A.1 ≠ [] := by
      rw [hdec]
      simp
    show hasSub _ ((if A.1 ≠ [] then
        "---RETRIEVED CONTEXT---\n".data ++ A.1 ++ "\n".data
      else
        ("---RETRIEVED CONTEXT---\n"
          ++ "No relevant context was retrieved. "
          ++ "Answer based on general knowledge only if appropriate.\n").data)
      ++ "\n".data ++ "---USER QUERY---\n".data ++ req.query_text) = true
    rw [if_pos hne]
    refine hasSub_of_decomp _ _
      ("---RETRIEVED CONTEXT---\n".data ++ l)
      (r ++ "\n".data ++ "\n".data ++ "---USER QUERY---\n".data
        ++ req.query_text) ?_
    rw [hdec]
    simp [List.append_assoc]

/-- Claim C1 (amended): for every request accepted by
`construct_prompt`, the citation-map keys are the dense range
`1..N`, and the entry at key `k` is built from the `k`-th chunk of the
ORIGINAL `request.retrieved_chunks` order (not from the rank-sorted
chunk under the `[Source k]` marker); when no chunk was truncated,
every key's `[Source k]` marker occurs in `user_message`. -/
theorem claim_C1_construct_amended (req : PromptRequest)
    (res : List Char × List (ℕ × CitationMapEntry) × ℕ × ℕ)
    (hok : constructPrompt req = .ok res) :
    (res.2.1.map Prod.fst = List.range' 1 res.2.1.length) ∧
    (∀ k e, (k, e) ∈ res.2.1 →
      ∃ c, req.retrieved_chunks.get? (k - 1) = some c ∧ e = entryOf c) ∧
    (res.2.2.2 = 0 →
      ∀ k ∈ res.2.1.map Prod.fst,
        hasSub ("[Source ".data ++ natDigits k ++ "]".data) res.1 = true) := by
  simp only [constructPrompt] at hok
  split_ifs at hok with hbudget
  rw [Except.ok.injEq] at hok
  subst hok
  obtain ⟨h1, h2, h3⟩ := assemble_spec req.retrieved_chunks
    (128000 - ((tokenCount systemPrompt : ℤ) +
      (tokenCount req.query_text : ℤ) + 0 + 0 +
      req.max_tokens_for_response))
  exact payload_props req _ h1 h2 h3





theorem claim_C1_counterexample :
    (constructPrompt
      ⟨"q".data,
       [⟨"A".data, none, "alpha".data, 0, 2,
          ⟨some "A.pdf".data, none, none, none⟩⟩,
        ⟨"B".data, none, "beta".data, 0, 1,
          ⟨some "B.pdf".data, none, none, none⟩⟩],
       1500⟩).toOption.map (fun res =>
      (hasSub "[Source 1], File: B.pdf".data res.1,
       hasSub "[Source 1], File: A.pdf".data res.1,
       (res.2.1.lookup 1).map (fun e => e.chunk_id),
       (res.2.1.lookup 1).map (fun e => e.metadata.source_file))) =
    some (true, false, some "A".data, some (some "A.pdf".data)) := by
  rfl

/-- Witness for the amended C1 at a concrete chunk-free request. -/
theorem claim_C1_construct_amended_witness :
    let res : List Char × List (ℕ × CitationMapEntry) × ℕ × ℕ :=
      (("---RETRIEVED CONTEXT---\n"
        ++ "No relevant context was retrieved. "
        ++ "Answer based on general knowledge only if appropriate.\n"
        ++ "\n---USER QUERY---\nq").data, [], 0, 0)
    (res.2.1.map Prod.fst = List.range' 1 res.2.1.length) ∧
    (∀ k e, (k, e) ∈ res.2.1 →
      ∃ c, (PromptRequest.mk "q".data [] 1500).retrieved_chunks.get?
        (k - 1) = some c ∧ e = entryOf c) ∧
    (res.2.2.2 = 0 →
      ∀ k ∈ res.2.1.map Prod.fst,
        hasSub ("[Source ".data ++ natDigits k ++ "]".data) res.1 = true) :=
  claim_C1_construct_amended ⟨"q".data, [], 1500⟩
    (("---RETRIEVED CONTEXT---\n"
      ++ "No relevant context was retrieved. "
      ++ "Answer based on general knowledge only if appropriate.\n"
      ++ "\n---USER QUERY---\nq").data, [], 0, 0) rfl

end RAG
